import Mathlib

/-!
Verification of the linked-list queue engine (`queue.c`).

The development shallowly embeds the C code:

* a stored string (`char *` payload) is the list of its bytes before the
  terminating NUL, modelled as `Str := List Nat`;
* `strcmp` is translated byte by byte, returning an `Ordering`;
* the node heap is a function from addresses (`Ptr := Nat`) to optional
  nodes; `malloc`/`free` become insertion/removal of a binding, and the
  two-stage allocation of the insert operations is reflected by explicit
  success parameters;
* the `queue_t` struct becomes the structure `QState` with `head`, `tail`,
  `size` (a mathematical integer standing for the C `int` counter) and the
  node heap;
* every loop of the C source is translated as a fuel-indexed function that
  returns `none` when fuel runs out or a dangling pointer is dereferenced;
  the theorems show that under the representation invariant enough fuel
  always exists, so the `none` branches are never taken on valid states.
-/

set_option maxHeartbeats 1000000

/-- Byte string: the contents of a NUL-terminated `char *` payload,
without the terminator (C strings cannot contain interior NUL bytes). -/
abbrev Str := List Nat

/-- Translation of `strcmp` from `<string.h>` as used by the source:
compare byte by byte; the NUL terminator (end of list) is smaller than
any further byte. -/
def strcmp : Str → Str → Ordering
  | [], [] => .eq
  | [], _ :: _ => .lt
  | _ :: _, [] => .gt
  | a :: as, b :: bs => if a < b then .lt else if b < a then .gt else strcmp as bs

/-- The non-strict comparison `strcmp a b <= 0` used to state sortedness. -/
def sle (a b : Str) : Prop := strcmp a b ≠ .gt

/-- The strict comparison `strcmp a b < 0` used by both sort routines. -/
def slt (a b : Str) : Prop := strcmp a b = .lt

instance : DecidableEq Ordering := fun a b => by
  cases a <;> cases b <;> first | exact isTrue rfl | exact isFalse (by simp)

instance : DecidableRel sle := fun a b => by unfold sle; infer_instance

instance : DecidableRel slt := fun a b => by unfold slt; infer_instance

theorem strcmp_eq_iff : ∀ {a b : Str}, strcmp a b = .eq ↔ a = b := by
  intro a
  induction a with
  | nil => intro b; cases b <;> simp [strcmp]
  | cons x as ih =>
    intro b
    cases b with
    | nil => simp [strcmp]
    | cons y bs =>
      by_cases hxy : x < y
      · simp [strcmp, hxy]
        omega
      · by_cases hyx : y < x
        · simp [strcmp, hxy, hyx]
          omega
        · have hxy' : x = y := by omega
          simp [strcmp, hxy, hyx, hxy', ih]

theorem strcmp_self (a : Str) : strcmp a a = .eq := strcmp_eq_iff.mpr rfl

theorem strcmp_swap : ∀ a b : Str, strcmp b a = (strcmp a b).swap := by
  intro a
  induction a with
  | nil => intro b; cases b <;> simp [strcmp, Ordering.swap]
  | cons x as ih =>
    intro b
    cases b with
    | nil => simp [strcmp, Ordering.swap]
    | cons y bs =>
      by_cases hxy : x < y
      · have hyx : ¬ y < x := by omega
        simp [strcmp, hxy, hyx, Ordering.swap]
      · by_cases hyx : y < x
        · simp [strcmp, hxy, hyx, Ordering.swap]
        · simp [strcmp, hxy, hyx, ih]

theorem strcmp_lt_trans :
    ∀ {a b c : Str}, strcmp a b = .lt → strcmp b c = .lt → strcmp a c = .lt := by
  intro a
  induction a with
  | nil =>
    intro b c hab hbc
    cases b with
    | nil => simp [strcmp] at hab
    | cons y bs =>
      cases c with
      | nil => simp [strcmp] at hbc
      | cons z cs => simp [strcmp]
  | cons x as ih =>
    intro b c hab hbc
    cases b with
    | nil => simp [strcmp] at hab
    | cons y bs =>
      cases c with
      | nil => simp [strcmp] at hbc
      | cons z cs =>
        simp only [strcmp] at hab hbc ⊢
        by_cases hxy : x < y
        · by_cases hyz : y < z
          · have hxz : x < z := by omega
            simp [hxz]
          · by_cases hzy : z < y
            · simp [hyz, hzy] at hbc
            · have hyz' : y = z := by omega
              have hxz : x < z := by omega
              simp [hxz]
        · by_cases hyx : y < x
          · simp [hxy, hyx] at hab
          · have hxy' : x = y := by omega
            subst hxy'
            by_cases hxz : x < z
            · simp [hxz]
            · by_cases hzx : z < x
              · simp [hxz, hzx] at hbc
              · simp [hxy] at hab
                simp [hxz, hzx] at hbc ⊢
                exact ih hab hbc

theorem slt_of_not_sle {a b : Str} (h : ¬ sle a b) : slt b a := by
  unfold sle at h
  unfold slt
  rw [strcmp_swap]
  rcases h' : strcmp a b <;> simp [h', Ordering.swap] at h ⊢

theorem sle_of_slt {a b : Str} (h : slt a b) : sle a b := by
  unfold slt at h
  unfold sle
  simp [h]

theorem not_slt_self (a : Str) : ¬ slt a a := by
  unfold slt
  simp [strcmp_self]

theorem sle_of_not_slt {a b : Str} (h : ¬ slt a b) : sle b a := by
  unfold slt at h
  unfold sle
  rw [strcmp_swap]
  rcases h' : strcmp a b <;> simp [h', Ordering.swap] at h ⊢

theorem sle_refl (a : Str) : sle a a := by
  unfold sle
  simp [strcmp_self]

theorem sle_antisymm {a b : Str} (hab : sle a b) (hba : sle b a) : a = b := by
  unfold sle at hab hba
  rw [strcmp_swap a b] at hba
  rcases h : strcmp a b
  · rw [h] at hba
    simp [Ordering.swap] at hba
  · exact strcmp_eq_iff.mp h
  · exact absurd h hab

theorem sle_trans {a b c : Str} (hab : sle a b) (hbc : sle b c) : sle a c := by
  unfold sle at hab hbc ⊢
  rcases h1 : strcmp a b with _ | _ | _
  · rcases h2 : strcmp b c with _ | _ | _
    · intro hac
      have := strcmp_lt_trans h1 h2
      rw [this] at hac
      cases hac
    · have : b = c := strcmp_eq_iff.mp h2
      subst this
      simp [h1]
    · exact absurd h2 hbc
  · have : a = b := strcmp_eq_iff.mp h1
    subst this
    exact hbc
  · exact absurd h1 hab

theorem sle_total (a b : Str) : sle a b ∨ sle b a := by
  unfold sle
  rw [strcmp_swap a b]
  rcases h : strcmp a b <;> simp [h, Ordering.swap]

theorem slt_trans_sle {a b c : Str} (hab : slt a b) (hbc : sle b c) : sle a c :=
  sle_trans (sle_of_slt hab) hbc

instance : IsTrans Str sle := ⟨fun _ _ _ => sle_trans⟩

instance : IsAntisymm Str sle := ⟨fun _ _ => sle_antisymm⟩

instance : IsTotal Str sle := ⟨sle_total⟩

instance : IsRefl Str sle := ⟨sle_refl⟩

/-! ### Value-level model of the two sort routines

`quick_sort` in the source only ever calls `swap_str` on payload pointers and
never touches a `next` link, so its entire effect is a permutation of the
sequence of payload values read from `first` to `last`; the function below is
that effect, with the Lomuto partition loop (`l`/`r`/`prev` walk) translated
state by state.  `merge_sort` relinks nodes; `merge_sortVals` below is its
effect on the value sequence (the slow/fast split takes
`(n - 1) / 2 + 1` front elements, the merge takes the left node exactly when
`strcmp` is negative), and the heap-level theorem `merge_sort_spec` later
proves that the pointer program realises it. -/

/-- Value-level translation of the merge loop at the end of `merge_sort`:
take the left element exactly when `strcmp(left->value, right->value) < 0`,
then append the non-exhausted chain. -/
def mergeL : List Str → List Str → List Str
  | [], r => r
  | l, [] => l
  | a :: as, b :: bs =>
    if strcmp a b = .lt then a :: mergeL as (b :: bs) else b :: mergeL (a :: as) bs
termination_by l r => l.length + r.length

/-- Value-level translation of `merge_sort`: the slow/fast pointer walk
splits a chain of `n ≥ 2` nodes into its first `(n - 1) / 2 + 1` nodes and
the rest; each half is sorted recursively and merged. -/
def merge_sortVals (l : List Str) : List Str :=
  match l with
  | [] => []
  | [a] => [a]
  | a :: b :: rest =>
    mergeL
      (merge_sortVals ((a :: b :: rest).take (((a :: b :: rest).length - 1) / 2 + 1)))
      (merge_sortVals ((a :: b :: rest).drop (((a :: b :: rest).length - 1) / 2 + 1)))
termination_by l.length
decreasing_by
  · simp
    omega
  · simp
    omega

theorem mergeL_perm (l r : List Str) : (mergeL l r).Perm (l ++ r) := by
  induction l, r using mergeL.induct with
  | case1 r => simp [mergeL]
  | case2 l => simp [mergeL]
  | case3 a as b bs h ih =>
    rw [mergeL]
    simp only [h, if_pos]
    exact ih.cons a
  | case4 a as b bs h ih =>
    rw [mergeL]
    simp only [h, if_neg, ite_false]
    exact (ih.cons b).trans List.perm_middle.symm

theorem mem_mergeL {x : Str} {l r : List Str} : x ∈ mergeL l r ↔ x ∈ l ∨ x ∈ r := by
  rw [(mergeL_perm l r).mem_iff, List.mem_append]

theorem mergeL_sorted {l r : List Str} (hl : List.Sorted sle l) (hr : List.Sorted sle r) :
    List.Sorted sle (mergeL l r) := by
  induction l, r using mergeL.induct with
  | case1 r => simpa [mergeL] using hr
  | case2 l => simpa [mergeL] using hl
  | case3 a as b bs h ih =>
    rw [mergeL]
    simp only [h, if_pos]
    rw [List.sorted_cons] at hl ⊢
    refine ⟨?_, ih hl.2 hr⟩
    intro x hx
    rcases mem_mergeL.mp hx with hx | hx
    · exact hl.1 x hx
    · rcases List.mem_cons.mp hx with rfl | hx
      · exact sle_of_slt h
      · exact sle_trans (sle_of_slt h) ((List.sorted_cons.mp hr).1 x hx)
  | case4 a as b bs h ih =>
    rw [mergeL]
    simp only [h, if_neg, ite_false]
    rw [List.sorted_cons] at hr ⊢
    refine ⟨?_, ih hl hr.2⟩
    intro x hx
    have hba : sle b a := sle_of_not_slt h
    rcases mem_mergeL.mp hx with hx | hx
    · rcases List.mem_cons.mp hx with rfl | hx
      · exact hba
      · exact sle_trans hba ((List.sorted_cons.mp hl).1 x hx)
    · exact hr.1 x hx

theorem merge_sortVals_eq_two {l : List Str} (h : 2 ≤ l.length) :
    merge_sortVals l =
      mergeL (merge_sortVals (l.take ((l.length - 1) / 2 + 1)))
             (merge_sortVals (l.drop ((l.length - 1) / 2 + 1))) := by
  match l with
  | [] => simp at h
  | [a] => simp at h
  | a :: b :: rest => rw [merge_sortVals]

theorem merge_sortVals_perm_aux : ∀ (n : Nat) (l : List Str), l.length ≤ n →
    (merge_sortVals l).Perm l := by
  intro n
  induction n with
  | zero =>
    intro l h
    have : l = [] := List.length_eq_zero.mp (Nat.le_zero.mp h)
    subst this
    simp [merge_sortVals]
  | succ n ih =>
    intro l h
    match l with
    | [] => simp [merge_sortVals]
    | [a] => simp [merge_sortVals]
    | a :: b :: rest =>
      rw [merge_sortVals]
      have hlen : (a :: b :: rest).length = rest.length + 2 := by simp
      have h' : rest.length + 2 ≤ n + 1 := by simpa using h
      have h1 : ((a :: b :: rest).take (((a :: b :: rest).length - 1) / 2 + 1)).length ≤ n := by
        simp only [List.length_take, List.length_cons]
        omega
      have h2 : ((a :: b :: rest).drop (((a :: b :: rest).length - 1) / 2 + 1)).length ≤ n := by
        simp only [List.length_drop, List.length_cons]
        omega
      refine (mergeL_perm _ _).trans ?_
      refine ((ih _ h1).append (ih _ h2)).trans ?_
      rw [List.take_append_drop]

theorem merge_sortVals_perm (l : List Str) : (merge_sortVals l).Perm l :=
  merge_sortVals_perm_aux l.length l le_rfl

theorem merge_sortVals_sorted_aux : ∀ (n : Nat) (l : List Str), l.length ≤ n →
    List.Sorted sle (merge_sortVals l) := by
  intro n
  induction n with
  | zero =>
    intro l h
    have : l = [] := List.length_eq_zero.mp (Nat.le_zero.mp h)
    subst this
    simp [merge_sortVals]
  | succ n ih =>
    intro l h
    match l with
    | [] => simp [merge_sortVals]
    | [a] => simp [merge_sortVals]
    | a :: b :: rest =>
      rw [merge_sortVals]
      have h' : rest.length + 2 ≤ n + 1 := by simpa using h
      have h1 : ((a :: b :: rest).take (((a :: b :: rest).length - 1) / 2 + 1)).length ≤ n := by
        simp only [List.length_take, List.length_cons]
        omega
      have h2 : ((a :: b :: rest).drop (((a :: b :: rest).length - 1) / 2 + 1)).length ≤ n := by
        simp only [List.length_drop, List.length_cons]
        omega
      exact mergeL_sorted (ih _ h1) (ih _ h2)

theorem merge_sortVals_sorted (l : List Str) : List.Sorted sle (merge_sortVals l) :=
  merge_sortVals_sorted_aux l.length l le_rfl

theorem merge_sortVals_idem (l : List Str) :
    merge_sortVals (merge_sortVals l) = merge_sortVals l :=
  List.eq_of_perm_of_sorted (merge_sortVals_perm (merge_sortVals l))
    (merge_sortVals_sorted _) (merge_sortVals_sorted l)

/-- Effect on a value block of `swap_str` between the scan position `r` and
the boundary position `l`: the value at `l` (front of the block) moves to
position `r` (back of the block).  When the block is empty, `l == r` and the
swap is the identity. -/
def rotFront : List Str → List Str
  | [] => []
  | h :: t => t ++ [h]

/-- One step of the Lomuto partition loop of `quick_sort`, acting on the
value sequence of the scanned range.  `lows` holds the values strictly below
the pivot accumulated at positions `first..l-1`, `highs` the values at
positions `l..r-1`, and the third argument the values not yet scanned
(positions `r..last-1`).  When `strcmp(r->value, last->value) < 0` the source
swaps the buffers at `r` and `l` and advances `l`: the scanned value joins
`lows` and the value previously at `l` moves to the back of `highs`. -/
def lomutoLoop (p : Str) : List Str → List Str → List Str → List Str × List Str
  | lows, highs, [] => (lows, highs)
  | lows, highs, x :: rest =>
    if strcmp x p = .lt then lomutoLoop p (lows ++ [x]) (rotFront highs) rest
    else lomutoLoop p lows (highs ++ [x]) rest

theorem rotFront_length (l : List Str) : (rotFront l).length = l.length := by
  cases l <;> simp [rotFront]

theorem rotFront_perm (l : List Str) : (rotFront l).Perm l := by
  cases l with
  | nil => simp [rotFront]
  | cons h t =>
    simp only [rotFront]
    exact (List.perm_append_comm).trans (by simp)

theorem lomutoLoop_length (p : Str) : ∀ (inp lows highs : List Str),
    (lomutoLoop p lows highs inp).1.length + (lomutoLoop p lows highs inp).2.length =
      lows.length + highs.length + inp.length := by
  intro inp
  induction inp with
  | nil => intro lows highs; simp [lomutoLoop]
  | cons x rest ih =>
    intro lows highs
    rw [lomutoLoop]
    by_cases hx : strcmp x p = .lt
    · rw [if_pos hx, ih]
      simp only [List.length_append, List.length_cons, List.length_nil, rotFront_length]
      omega
    · rw [if_neg hx, ih]
      simp only [List.length_append, List.length_cons, List.length_nil]
      omega

theorem lomutoLoop_perm (p : Str) : ∀ (inp lows highs : List Str),
    ((lomutoLoop p lows highs inp).1 ++ (lomutoLoop p lows highs inp).2).Perm
      ((lows ++ highs) ++ inp) := by
  intro inp
  induction inp with
  | nil => intro lows highs; simp [lomutoLoop]
  | cons x rest ih =>
    intro lows highs
    rw [lomutoLoop]
    by_cases hx : strcmp x p = .lt
    · rw [if_pos hx]
      refine (ih _ _).trans ?_
      rw [List.perm_iff_count]
      intro a
      have hc := (rotFront_perm highs).count_eq a
      simp only [List.count_append, List.count_cons, List.count_nil, hc]
      omega
    · rw [if_neg hx]
      refine (ih _ _).trans ?_
      rw [List.perm_iff_count]
      intro a
      simp only [List.count_append, List.count_cons, List.count_nil]
      omega

theorem lomutoLoop_pred (p : Str) : ∀ (inp lows highs : List Str),
    (∀ z ∈ lows, slt z p) → (∀ z ∈ highs, ¬ slt z p) →
    (∀ z ∈ (lomutoLoop p lows highs inp).1, slt z p) ∧
      (∀ z ∈ (lomutoLoop p lows highs inp).2, ¬ slt z p) := by
  intro inp
  induction inp with
  | nil => intro lows highs hl hh; simpa [lomutoLoop] using ⟨hl, hh⟩
  | cons x rest ih =>
    intro lows highs hl hh
    rw [lomutoLoop]
    by_cases hx : strcmp x p = .lt
    · rw [if_pos hx]
      refine ih _ _ ?_ ?_
      · intro z hz
        rcases List.mem_append.mp hz with hz | hz
        · exact hl z hz
        · rcases List.mem_singleton.mp hz with rfl
          exact hx
      · intro z hz
        exact hh z ((rotFront_perm highs).mem_iff.mp hz)
    · rw [if_neg hx]
      refine ih _ _ hl ?_
      intro z hz
      rcases List.mem_append.mp hz with hz | hz
      · exact hh z hz
      · rcases List.mem_singleton.mp hz with rfl
        exact hx

/-- Value-level translation of `quick_sort`: for a range of at least two
nodes take the last value as pivot, run the Lomuto partition, swap the pivot
into the boundary position (`swap_str(&l->value, &last->value)`, which sends
the first high value to the back), and recurse on the ranges `first..prev`
(the lows) and `l->next..last` (the rotated highs). -/
def quick_sort (l : List Str) : List Str :=
  match l with
  | [] => []
  | [a] => [a]
  | a :: b :: rest =>
    quick_sort (lomutoLoop ((a :: b :: rest).getLastD []) [] []
        ((a :: b :: rest).dropLast)).1 ++
      (a :: b :: rest).getLastD [] ::
        quick_sort (rotFront (lomutoLoop ((a :: b :: rest).getLastD []) [] []
          ((a :: b :: rest).dropLast)).2)
termination_by l.length
decreasing_by
  · have := lomutoLoop_length ((a :: b :: rest).getLastD []) ((a :: b :: rest).dropLast) [] []
    simp only [List.length_nil, List.length_dropLast, List.length_cons] at this
    simp only [List.length_cons]
    omega
  · have := lomutoLoop_length ((a :: b :: rest).getLastD []) ((a :: b :: rest).dropLast) [] []
    simp only [List.length_nil, List.length_dropLast, List.length_cons] at this
    simp only [rotFront_length, List.length_cons]
    omega

theorem getLastD_concat (l : List Str) (p : Str) : (l ++ [p]).getLastD [] = p := by
  rw [List.getLastD_eq_getLast?, List.getLast?_append_of_ne_nil l (by simp)]
  rfl

/-- Unfolding of `quick_sort` on a range presented as body-plus-pivot. -/
theorem quick_sort_concat (body : List Str) (p : Str) (hb : body ≠ []) :
    quick_sort (body ++ [p]) =
      quick_sort (lomutoLoop p [] [] body).1 ++
        p :: quick_sort (rotFront (lomutoLoop p [] [] body).2) := by
  match body with
  | [] => exact absurd rfl hb
  | x :: xs =>
    have hshape : x :: xs ++ [p] = x :: (xs ++ [p]) := by simp
    cases xs with
    | nil =>
      rw [show [x] ++ [p] = x :: p :: [] from rfl, quick_sort]
      simp [List.getLastD, lomutoLoop]
    | cons y ys =>
      rw [show (x :: y :: ys) ++ [p] = x :: y :: (ys ++ [p]) from rfl, quick_sort]
      have hg : (x :: y :: (ys ++ [p])).getLastD [] = p := by
        rw [show x :: y :: (ys ++ [p]) = (x :: y :: ys) ++ [p] by simp]
        exact getLastD_concat _ _
      have hd : (x :: y :: (ys ++ [p])).dropLast = x :: y :: ys := by
        rw [show x :: y :: (ys ++ [p]) = (x :: y :: ys) ++ [p] by simp]
        exact List.dropLast_concat ..
      rw [hg, hd]

theorem dropLast_append_getLastD {l : List Str} (h : l ≠ []) :
    l.dropLast ++ [l.getLastD []] = l := by
  cases l with
  | nil => exact absurd rfl h
  | cons a t =>
    rw [List.getLastD_eq_getLast?, List.getLast?_eq_getLast _ h, Option.getD_some]
    exact List.dropLast_append_getLast h

theorem quick_sort_perm_aux : ∀ (n : Nat) (l : List Str), l.length ≤ n →
    (quick_sort l).Perm l := by
  intro n
  induction n with
  | zero =>
    intro l h
    have hl : l = [] := List.length_eq_zero.mp (Nat.le_zero.mp h)
    subst hl
    simp [quick_sort]
  | succ n ih =>
    intro l h
    match l with
    | [] => simp [quick_sort]
    | [a] => simp [quick_sort]
    | a :: b :: rest =>
      obtain ⟨body, p, hbne, hdec⟩ :
          ∃ body p, body ≠ [] ∧ body ++ [p] = a :: b :: rest :=
        ⟨(a :: b :: rest).dropLast, (a :: b :: rest).getLastD [], by simp,
          dropLast_append_getLastD (by simp)⟩
      rw [← hdec] at h ⊢
      have hblen : body.length ≤ n := by
        simp only [List.length_append, List.length_cons, List.length_nil] at h
        omega
      rw [quick_sort_concat body p hbne]
      have hlen := lomutoLoop_length p body [] []
      simp only [List.length_nil, Nat.zero_add] at hlen
      have hperm := lomutoLoop_perm p body [] []
      simp only [List.nil_append] at hperm
      refine ((ih _ ?_).append ((ih _ ?_).cons p)).trans ?_
      · omega
      · rw [rotFront_length]
        omega
      · rw [List.perm_iff_count]
        intro c
        have h1 := hperm.count_eq c
        have h2 := (rotFront_perm (lomutoLoop p [] [] body).2).count_eq c
        simp only [List.count_append, List.count_cons, List.count_nil] at h1 h2 ⊢
        omega

theorem quick_sort_perm (l : List Str) : (quick_sort l).Perm l :=
  quick_sort_perm_aux l.length l le_rfl

theorem quick_sort_sorted_aux : ∀ (n : Nat) (l : List Str), l.length ≤ n →
    List.Sorted sle (quick_sort l) := by
  intro n
  induction n with
  | zero =>
    intro l h
    have hl : l = [] := List.length_eq_zero.mp (Nat.le_zero.mp h)
    subst hl
    simp [quick_sort]
  | succ n ih =>
    intro l h
    match l with
    | [] => simp [quick_sort]
    | [a] => simp [quick_sort]
    | a :: b :: rest =>
      obtain ⟨body, p, hbne, hdec⟩ :
          ∃ body p, body ≠ [] ∧ body ++ [p] = a :: b :: rest :=
        ⟨(a :: b :: rest).dropLast, (a :: b :: rest).getLastD [], by simp,
          dropLast_append_getLastD (by simp)⟩
      rw [← hdec] at h
      rw [← hdec, quick_sort_concat body p hbne]
      have hlen := lomutoLoop_length p body [] []
      simp only [List.length_nil, Nat.zero_add] at hlen
      have hblen : body.length ≤ n := by
        simp only [List.length_append, List.length_cons, List.length_nil] at h
        omega
      obtain ⟨hlow, hhigh⟩ := lomutoLoop_pred p body [] [] (by simp) (by simp)
      have hmem1 : ∀ x ∈ quick_sort (lomutoLoop p [] [] body).1, slt x p := by
        intro x hx
        exact hlow x ((quick_sort_perm _).mem_iff.mp hx)
      have hmem2 : ∀ x ∈ quick_sort (rotFront (lomutoLoop p [] [] body).2), sle p x := by
        intro x hx
        have : x ∈ (lomutoLoop p [] [] body).2 :=
          (rotFront_perm _).mem_iff.mp ((quick_sort_perm _).mem_iff.mp hx)
        exact sle_of_not_slt (hhigh x this)
      refine List.pairwise_append.mpr ⟨ih _ (by omega), ?_, ?_⟩
      · refine List.pairwise_cons.mpr ⟨hmem2, ih _ ?_⟩
        rw [rotFront_length]
        omega
      · intro x hx y hy
        rcases List.mem_cons.mp hy with rfl | hy
        · exact sle_of_slt (hmem1 x hx)
        · exact slt_trans_sle (hmem1 x hx) (hmem2 y hy)

theorem quick_sort_sorted (l : List Str) : List.Sorted sle (quick_sort l) :=
  quick_sort_sorted_aux l.length l le_rfl

/-- The two sort strategies compute the same value sequence: both produce a
sorted permutation of the input, and sorted permutations under the total
antisymmetric order `sle` are unique. -/
theorem quick_sort_eq_merge_sortVals (l : List Str) : quick_sort l = merge_sortVals l :=
  List.eq_of_perm_of_sorted ((quick_sort_perm l).trans (merge_sortVals_perm l).symm)
    (quick_sort_sorted l) (merge_sortVals_sorted l)

/-! ### Heap-level model of the queue

Pointers are abstract addresses; the node heap maps an address to the node
stored there (`none` = unallocated).  `malloc` outcomes are explicit
parameters of the operations: an `Option Ptr` for the node allocation
(`none` = allocation failure, `some p` = fresh block at `p`) and a `Bool`
for the payload allocation.  The payload buffer is stored inside the node:
after `memcpy` plus NUL-termination the stored value equals the argument
string, so the separate `char *` block carries no extra information. -/

abbrev Ptr := Nat

/-- Translation of `list_ele_t`: an owned payload and the next link. -/
structure Node where
  value : Str
  next : Option Ptr
deriving DecidableEq

abbrev Heap := Ptr → Option Node

/-- Heap update: reassign the block at address `p` (or free it with `none`). -/
def hupdate (h : Heap) (p : Ptr) (v : Option Node) : Heap :=
  fun x => if x = p then v else h x

/-- The store `p->next = nx` (undefined-behaviour dereference of a dangling
pointer leaves the heap unchanged; the proofs only use `setNext` on
allocated addresses). -/
def setNext (h : Heap) (p : Ptr) (nx : Option Ptr) : Heap :=
  hupdate h p ((h p).map fun nd => ⟨nd.value, nx⟩)

/-- The payload stored at an address, if the address is allocated. -/
def valueAt (h : Heap) (p : Ptr) : Option Str := (h p).map Node.value

/-- The value sequence along a list of addresses. -/
def valsIn (h : Heap) (ps : List Ptr) : List Str :=
  ps.map fun p => ((h p).getD ⟨[], none⟩).value

/-- Translation of `queue_t`: head pointer, tail pointer, `int size`
(mathematical integer; the counter never overflows in the verified runs),
together with the node heap the queue owns. -/
structure QState where
  head : Option Ptr
  tail : Option Ptr
  size : Int
  heap : Heap

theorem QState.ext_iff' {q q' : QState} :
    q = q' ↔ q.head = q'.head ∧ q.tail = q'.tail ∧ q.size = q'.size ∧ q.heap = q'.heap := by
  constructor
  · rintro rfl
    exact ⟨rfl, rfl, rfl, rfl⟩
  · rcases q with ⟨h1, t1, s1, m1⟩
    rcases q' with ⟨h2, t2, s2, m2⟩
    rintro ⟨rfl, rfl, rfl, rfl⟩
    rfl

/-- Translation of `q_new` (the successfully allocated case): empty queue
over the empty heap. -/
def q_new : QState := ⟨none, none, 0, fun _ => none⟩

/-- Translation of `q_insert_head`.  `a1` is the outcome of
`malloc(sizeof(list_ele_t))`, `a2` the outcome of the payload `malloc`.
On the payload-failure path the source frees the fresh node before
returning, so the resulting heap is the original one. -/
def q_insert_head : Option QState → Str → Option Ptr → Bool → Bool × Option QState
  | none, _, _, _ => (false, none)
  | some q, s, a1, a2 =>
    match a1 with
    | none => (false, some q)
    | some newh =>
      if a2 then
        (true, some ⟨some newh,
          if q.tail = none then some newh else q.tail,
          q.size + 1,
          hupdate q.heap newh (some ⟨s, q.head⟩)⟩)
      else (false, some q)

/-- Translation of `q_insert_tail` (same allocation conventions as
`q_insert_head`; the fresh node gets `next = NULL`, then is linked after
the old tail, or becomes both head and tail of an empty queue). -/
def q_insert_tail : Option QState → Str → Option Ptr → Bool → Bool × Option QState
  | none, _, _, _ => (false, none)
  | some q, s, a1, a2 =>
    match a1 with
    | none => (false, some q)
    | some newt =>
      if a2 then
        match q.tail with
        | none => (true, some ⟨some newt, some newt, q.size + 1,
            hupdate q.heap newt (some ⟨s, none⟩)⟩)
        | some t => (true, some ⟨q.head, some newt, q.size + 1,
            setNext (hupdate q.heap newt (some ⟨s, none⟩)) t (some newt)⟩)
      else (false, some q)

/-- The type `size_t` has 64 bits here; `bufsize - 1` in the source is computed in
this modular arithmetic. -/
def wordSize : Nat := 2 ^ 64

/-- The value of the C expression `bufsize - 1` (of type `size_t`): both the
`strncpy` length bound and the index of the written NUL terminator. -/
def sizeSub1 (n : Nat) : Nat := (n + (wordSize - 1)) % wordSize

/-- Translation of `q_remove_head`.  `spOk` says whether the output buffer
pointer `sp` is non-null; the third component of the result is the string
contents left in the buffer (`strncpy` of at most `bufsize - 1` payload
bytes followed by the NUL store at index `bufsize - 1`). -/
def q_remove_head : Option QState → Bool → Nat → Bool × Option QState × Option Str
  | none, _, _ => (false, none, none)
  | some q, spOk, bufsize =>
    match q.head with
    | none => (false, some q, none)
    | some hp =>
      if spOk then
        (true, some ⟨((q.heap hp).getD ⟨[], none⟩).next,
            if q.size - 1 = 0 then none else q.tail,
            q.size - 1,
            hupdate q.heap hp none⟩,
          some (((q.heap hp).getD ⟨[], none⟩).value.take (sizeSub1 bufsize)))
      else (false, some q, none)

/-- Translation of `q_size`. -/
def q_size : Option QState → Int
  | none => 0
  | some q => q.size

/-- Translation of the `while (r)` loop of `q_reverse`: redirect the current
node's next pointer to the previously visited node and advance. -/
def reverseLoop : Nat → Heap → Option Ptr → Option Ptr → Option (Heap × Option Ptr)
  | fuel, h, l, r =>
    match r with
    | none => some (h, l)
    | some rp =>
      match fuel with
      | 0 => none
      | fuel' + 1 =>
        match h rp with
        | none => none
        | some nd => reverseLoop fuel' (setNext h rp l) (some rp) nd.next

/-- Translation of `q_reverse`: `q->tail = q->head`, run the loop from
`l = NULL`, `r = q->head`, finally `q->head = l`. -/
def q_reverse (fuel : Nat) : Option QState → Option (Option QState)
  | none => some none
  | some q =>
    match reverseLoop fuel q.heap none q.head with
    | none => none
    | some (h2, l) => some (some ⟨l, q.head, q.size, h2⟩)

/-- Translation of the slow/fast pointer loop of `merge_sort`
(`while (right && right->next) { left = left->next; right = right->next->next; }`);
returns the final `left`. -/
def splitLoop : Nat → Heap → Ptr → Option Ptr → Option Ptr
  | fuel, h, left, right =>
    match right with
    | none => some left
    | some rp =>
      match h rp with
      | none => none
      | some rnd =>
        match rnd.next with
        | none => some left
        | some rp2 =>
          match fuel with
          | 0 => none
          | fuel' + 1 =>
            match h left with
            | none => none
            | some lnd =>
              match lnd.next with
              | none => none
              | some lp2 =>
                match h rp2 with
                | none => none
                | some rnd2 => splitLoop fuel' h lp2 rnd2.next

/-- Translation of the merge loop of `merge_sort`: repeatedly link the
smaller front node into the output position (`*head = ...; head = &(*head)->next`),
finishing with `*head = left ? left : right`.  The function returns the new
heap and the head of the merged chain; the caller stores that head where its
`head` double pointer pointed. -/
def mergeLoop : Nat → Heap → Option Ptr → Option Ptr → Option (Heap × Option Ptr)
  | _, h, none, r => some (h, r)
  | _, h, some lp, none => some (h, some lp)
  | fuel, h, some lp, some rp =>
    match fuel with
    | 0 => none
    | fuel' + 1 =>
      match h lp, h rp with
      | some lnd, some rnd =>
        if strcmp lnd.value rnd.value = .lt then
          match mergeLoop fuel' h lnd.next (some rp) with
          | none => none
          | some (h2, rest) => some (setNext h2 lp rest, some lp)
        else
          match mergeLoop fuel' h (some lp) rnd.next with
          | none => none
          | some (h2, rest) => some (setNext h2 rp rest, some rp)
      | _, _ => none

/-- Translation of `merge_sort` (the `list_ele_t **head` parameter becomes
the returned head pointer): guard for chains of length at most one, split at
the slow/fast point by clearing `left->next`, recursively sort both halves,
then merge. -/
def merge_sort : Nat → Heap → Option Ptr → Option (Heap × Option Ptr)
  | fuel, h, hd =>
    match hd with
    | none => some (h, none)
    | some hp =>
      match h hp with
      | none => none
      | some hnd =>
        match hnd.next with
        | none => some (h, some hp)
        | some _ =>
          match fuel with
          | 0 => none
          | fuel' + 1 =>
            match splitLoop fuel' h hp hnd.next with
            | none => none
            | some leftEnd =>
              match h leftEnd with
              | none => none
              | some lend =>
                match merge_sort fuel' (setNext h leftEnd none) (some hp) with
                | none => none
                | some (h2, lhd) =>
                  match merge_sort fuel' h2 lend.next with
                  | none => none
                  | some (h3, rhd) => mergeLoop fuel' h3 lhd rhd

/-- Translation of the tail fix-up loop of `q_sort`
(`while (q->tail && q->tail->next) q->tail = q->tail->next;`). -/
def tailWalkLoop : Nat → Heap → Option Ptr → Option (Option Ptr)
  | fuel, h, t =>
    match t with
    | none => some none
    | some tp =>
      match h tp with
      | none => none
      | some nd =>
        match nd.next with
        | none => some (some tp)
        | some _ =>
          match fuel with
          | 0 => none
          | fuel' + 1 => tailWalkLoop fuel' h nd.next

/-- Translation of `q_sort`: the production path (`if (1)`) runs
`merge_sort(&q->head)` and then re-derives the tail by walking from the old
tail to the last node. -/
def q_sort (fuel : Nat) : Option QState → Option (Option QState)
  | none => some none
  | some q =>
    match merge_sort fuel q.heap q.head with
    | none => none
    | some (h2, hd2) =>
      match tailWalkLoop fuel h2 q.tail with
      | none => none
      | some t2 => some (some ⟨hd2, t2, q.size, h2⟩)

/-- Iteration `iterNext h p k` follows `k` next links starting at `p`. -/
def iterNext (h : Heap) : Option Ptr → Nat → Option Ptr
  | p, 0 => p
  | p, k + 1 =>
    match p with
    | none => none
    | some q =>
      match h q with
      | none => none
      | some nd => iterNext h nd.next k

/-- Predicate `chainSeg h hd ps tl`: starting at `hd` and following `next` links, the
walk visits exactly the addresses `ps` and then sits at `tl`. -/
inductive chainSeg (h : Heap) : Option Ptr → List Ptr → Option Ptr → Prop
  | nil (p : Option Ptr) : chainSeg h p [] p
  | cons {p : Ptr} {nd : Node} {ps : List Ptr} {tl : Option Ptr}
      (hp : h p = some nd) (rest : chainSeg h nd.next ps tl) :
      chainSeg h (some p) (p :: ps) tl

/-- A full NULL-terminated chain. -/
def chain (h : Heap) (hd : Option Ptr) (ps : List Ptr) : Prop := chainSeg h hd ps none

/-- Representation invariant of a queue: the heap chain from `head` visits
`ps` and ends at NULL, `tail` is the last visited address, and `size` is the
number of nodes. -/
def reprQ (q : QState) (ps : List Ptr) : Prop :=
  chain q.heap q.head ps ∧ q.tail = ps.getLast? ∧ q.size = ps.length

theorem hupdate_same (h : Heap) (p : Ptr) (v : Option Node) : hupdate h p v p = v := by
  simp [hupdate]

theorem hupdate_other (h : Heap) (p : Ptr) (v : Option Node) {x : Ptr} (hx : x ≠ p) :
    hupdate h p v x = h x := by
  simp [hupdate, hx]

theorem setNext_other (h : Heap) (p : Ptr) (nx : Option Ptr) {x : Ptr} (hx : x ≠ p) :
    setNext h p nx x = h x := by
  simp [setNext, hupdate, hx]

theorem setNext_same_of_mem (h : Heap) (p : Ptr) (nx : Option Ptr) {nd : Node}
    (hp : h p = some nd) : setNext h p nx p = some ⟨nd.value, nx⟩ := by
  simp [setNext, hupdate, hp]

theorem valueAt_setNext (h : Heap) (p : Ptr) (nx : Option Ptr) (x : Ptr) :
    valueAt (setNext h p nx) x = valueAt h x := by
  by_cases hx : x = p
  · subst hx
    rcases hp : h x with _ | nd <;> simp [valueAt, setNext, hupdate, hp]
  · simp [valueAt, setNext, hupdate, hx]

theorem valsIn_congr {h h2 : Heap} (hv : ∀ p, valueAt h2 p = valueAt h p)
    (ps : List Ptr) : valsIn h2 ps = valsIn h ps := by
  induction ps with
  | nil => rfl
  | cons p ps ih =>
    have hp := hv p
    rcases h2p : h2 p with _ | nd2 <;> rcases hp' : h p with _ | nd <;>
      simp [valueAt, h2p, hp'] at hp <;> simp [valsIn, h2p, hp', hp] at ih ⊢ <;> exact ih

theorem chainSeg_framed {h h2 : Heap} :
    ∀ {hd : Option Ptr} {ps : List Ptr} {tl : Option Ptr},
    (∀ p ∈ ps, h2 p = h p) → chainSeg h hd ps tl → chainSeg h2 hd ps tl := by
  intro hd ps tl hagree hc
  induction hc with
  | nil p => exact chainSeg.nil p
  | cons hp rest ih =>
    refine chainSeg.cons ?_ (ih ?_)
    · rw [hagree _ (List.mem_cons_self _ _)]
      exact hp
    · intro x hx
      exact hagree x (List.mem_cons_of_mem _ hx)

theorem chainSeg_nil_inv {h : Heap} {hd tl : Option Ptr} (hc : chainSeg h hd [] tl) :
    hd = tl := by
  cases hc
  rfl

theorem chainSeg_cons_inv {h : Heap} {hd tl : Option Ptr} {a : Ptr} {ps : List Ptr}
    (hc : chainSeg h hd (a :: ps) tl) :
    hd = some a ∧ ∃ nd, h a = some nd ∧ chainSeg h nd.next ps tl := by
  cases hc with
  | cons hp rest => exact ⟨rfl, _, hp, rest⟩

theorem chainSeg_append {h : Heap} :
    ∀ {l1 l2 : List Ptr} {hd tl : Option Ptr},
    chainSeg h hd (l1 ++ l2) tl ↔ ∃ mid, chainSeg h hd l1 mid ∧ chainSeg h mid l2 tl := by
  intro l1
  induction l1 with
  | nil =>
    intro l2 hd tl
    constructor
    · intro hc
      exact ⟨hd, chainSeg.nil hd, hc⟩
    · rintro ⟨mid, hmid, hc⟩
      rw [chainSeg_nil_inv hmid]
      exact hc
  | cons a l1 ih =>
    intro l2 hd tl
    constructor
    · intro hc
      obtain ⟨rfl, nd, hnd, hrest⟩ := chainSeg_cons_inv hc
      obtain ⟨mid, h1, h2⟩ := ih.mp hrest
      exact ⟨mid, chainSeg.cons hnd h1, h2⟩
    · rintro ⟨mid, hmid, hc⟩
      obtain ⟨rfl, nd, hnd, hrest⟩ := chainSeg_cons_inv hmid
      exact chainSeg.cons hnd (ih.mpr ⟨mid, hrest, hc⟩)

theorem chain_unique {h : Heap} :
    ∀ {ps qs : List Ptr} {hd : Option Ptr}, chain h hd ps → chain h hd qs → ps = qs := by
  intro ps
  induction ps with
  | nil =>
    intro qs hd hp hq
    have : hd = none := chainSeg_nil_inv hp
    subst this
    cases qs with
    | nil => rfl
    | cons b qs =>
      obtain ⟨hb, -⟩ := chainSeg_cons_inv hq
      cases hb
  | cons a ps ih =>
    intro qs hd hp hq
    obtain ⟨rfl, nd, hnd, hrest⟩ := chainSeg_cons_inv hp
    cases qs with
    | nil =>
      have : some a = none := chainSeg_nil_inv hq
      cases this
    | cons b qs =>
      obtain ⟨hb, nd2, hnd2, hrest2⟩ := chainSeg_cons_inv hq
      have hab : a = b := by
        cases hb
        rfl
      subst hab
      rw [hnd] at hnd2
      cases hnd2
      rw [ih hrest hrest2]

theorem chainSeg_mem_heap {h : Heap} :
    ∀ {hd tl : Option Ptr} {ps : List Ptr}, chainSeg h hd ps tl →
      ∀ p ∈ ps, ∃ nd, h p = some nd := by
  intro hd tl ps hc
  induction hc with
  | nil p => simp
  | cons hp rest ih =>
    intro x hx
    rcases List.mem_cons.mp hx with rfl | hx
    · exact ⟨_, hp⟩
    · exact ih x hx

theorem chain_mem_suffix {h : Heap} :
    ∀ {ps : List Ptr} {hd tl : Option Ptr}, chainSeg h hd ps tl →
      ∀ {p : Ptr}, p ∈ ps →
        ∃ pre suf, ps = pre ++ p :: suf ∧ chainSeg h (some p) (p :: suf) tl := by
  intro ps
  induction ps with
  | nil => intro hd tl hc p hp; simp at hp
  | cons a ps ih =>
    intro hd tl hc p hp
    obtain ⟨rfl, nd, hnd, hrest⟩ := chainSeg_cons_inv hc
    rcases List.mem_cons.mp hp with rfl | hp
    · exact ⟨[], ps, rfl, chainSeg.cons hnd hrest⟩
    · obtain ⟨pre, suf, heq, hchain⟩ := ih hrest hp
      exact ⟨a :: pre, suf, by rw [heq]; rfl, hchain⟩

theorem chain_nodup {h : Heap} :
    ∀ {ps : List Ptr} {hd : Option Ptr}, chain h hd ps → ps.Nodup := by
  intro ps
  induction ps with
  | nil => intro hd hc; exact List.nodup_nil
  | cons a ps ih =>
    intro hd hc
    obtain ⟨rfl, nd, hnd, hrest⟩ := chainSeg_cons_inv hc
    rw [List.nodup_cons]
    refine ⟨?_, ih hrest⟩
    intro hmem
    obtain ⟨pre, suf, heq, hchain⟩ := chain_mem_suffix hrest hmem
    have hwhole : chain h (some a) (a :: ps) := chainSeg.cons hnd hrest
    have huniq := chain_unique hwhole hchain
    have hlen := congrArg List.length huniq
    have hlen2 := congrArg List.length heq
    simp only [List.length_cons, List.length_append] at hlen hlen2
    omega

theorem chain_last {h : Heap} :
    ∀ {ps : List Ptr} {tl : Option Ptr} {p : Ptr}, chainSeg h (some p) (p :: ps) tl →
      ∃ q nd, (p :: ps).getLast? = some q ∧ h q = some nd ∧ nd.next = tl := by
  intro ps
  induction ps with
  | nil =>
    intro tl p hc
    obtain ⟨-, nd, hnd, hrest⟩ := chainSeg_cons_inv hc
    exact ⟨p, nd, rfl, hnd, chainSeg_nil_inv hrest⟩
  | cons b ps ih =>
    intro tl p hc
    obtain ⟨-, nd, hnd, hrest⟩ := chainSeg_cons_inv hc
    obtain ⟨hb, -⟩ := chainSeg_cons_inv hrest
    rw [hb] at hrest
    obtain ⟨q, nd2, hq, hnd2, hnext⟩ := ih hrest
    exact ⟨q, nd2, by rw [List.getLast?_cons_cons]; exact hq, hnd2, hnext⟩

theorem chainSeg_retarget {h : Heap} :
    ∀ {ps : List Ptr} {hd tl : Option Ptr} {q : Ptr} (nx : Option Ptr),
    chainSeg h hd ps tl → ps.Nodup → ps.getLast? = some q →
    chainSeg (setNext h q nx) hd ps nx := by
  intro ps
  induction ps with
  | nil =>
    intro hd tl q nx hc hnd hq
    cases hq
  | cons a ps ih =>
    intro hd tl q nx hc hnd hq
    obtain ⟨rfl, nd, hnd', hrest⟩ := chainSeg_cons_inv hc
    cases ps with
    | nil =>
      have hqa : a = q := by
        have : some a = some q := hq
        cases this
        rfl
      subst hqa
      have := chainSeg_nil_inv hrest
      subst this
      exact chainSeg.cons (setNext_same_of_mem h a nx hnd') (chainSeg.nil nx)
    | cons b ps =>
      rw [List.getLast?_cons_cons] at hq
      have hqmem : q ∈ b :: ps := by
        have := List.mem_getLast?_eq_getLast (Option.mem_def.mpr hq)
        obtain ⟨hne, rfl⟩ := this
        exact List.getLast_mem hne
      have haq : a ≠ q := by
        rw [List.nodup_cons] at hnd
        intro heq
        exact hnd.1 (heq ▸ hqmem)
      refine chainSeg.cons ?_ (ih nx hrest (List.nodup_cons.mp hnd).2 hq)
      rw [setNext_other h q nx haq]
      exact hnd'

theorem chain_iterNext_none {h : Heap} :
    ∀ {ps : List Ptr} {hd : Option Ptr}, chain h hd ps →
      iterNext h hd ps.length = none := by
  intro ps
  induction ps with
  | nil =>
    intro hd hc
    have := chainSeg_nil_inv hc
    subst this
    rfl
  | cons a ps ih =>
    intro hd hc
    obtain ⟨rfl, nd, hnd, hrest⟩ := chainSeg_cons_inv hc
    simp only [List.length_cons, iterNext, hnd]
    exact ih hrest

theorem chain_iterNext_last {h : Heap} :
    ∀ {ps : List Ptr} {hd : Option Ptr}, chain h hd ps → ps ≠ [] →
      iterNext h hd (ps.length - 1) = ps.getLast? := by
  intro ps
  induction ps with
  | nil => intro hd hc hne; exact absurd rfl hne
  | cons a ps ih =>
    intro hd hc hne
    obtain ⟨rfl, nd, hnd, hrest⟩ := chainSeg_cons_inv hc
    cases ps with
    | nil => rfl
    | cons b ps =>
      rw [List.getLast?_cons_cons]
      have := ih hrest (by simp)
      simp only [List.length_cons, Nat.add_sub_cancel] at this ⊢
      rw [show iterNext h (some a) (ps.length + 1) =
          iterNext h nd.next ps.length by simp [iterNext, hnd]]
      simpa using this

theorem valsIn_eq_map_valueAt (h : Heap) (ps : List Ptr) :
    valsIn h ps = ps.map fun p => (valueAt h p).getD [] := by
  induction ps with
  | nil => rfl
  | cons p ps ih =>
    rcases hp : h p with _ | nd <;> simp [valsIn, valueAt, hp] at ih ⊢ <;> exact ih

theorem valsIn_congr_mem {h h2 : Heap} {ps : List Ptr}
    (hv : ∀ p ∈ ps, valueAt h2 p = valueAt h p) : valsIn h2 ps = valsIn h ps := by
  rw [valsIn_eq_map_valueAt, valsIn_eq_map_valueAt]
  exact List.map_congr_left fun p hp => by rw [hv p hp]

theorem valsIn_cons (h : Heap) (p : Ptr) (ps : List Ptr) {nd : Node} (hp : h p = some nd) :
    valsIn h (p :: ps) = nd.value :: valsIn h ps := by
  simp [valsIn, hp]

theorem chain_head_eq {h : Heap} {hd : Option Ptr} {ps : List Ptr}
    (hc : chainSeg h hd ps none) : hd = ps.head? := by
  cases ps with
  | nil => exact chainSeg_nil_inv hc
  | cons a ps => exact (chainSeg_cons_inv hc).1

/-- Running `q_insert_head` on a fresh address: success, and the new node is pushed
in front of the chain. -/
theorem q_insert_head_spec {q : QState} {ps : List Ptr} (hrepr : reprQ q ps) (s : Str)
    {a1 : Ptr} (hfresh : a1 ∉ ps) :
    ∃ q2, q_insert_head (some q) s (some a1) true = (true, some q2) ∧
      reprQ q2 (a1 :: ps) ∧
      valsIn q2.heap (a1 :: ps) = s :: valsIn q.heap ps ∧
      (∀ p, p ≠ a1 → q2.heap p = q.heap p) ∧ q2.size = q.size + 1 := by
  obtain ⟨hchain, htail, hsize⟩ := hrepr
  refine ⟨_, rfl, ⟨?_, ?_, ?_⟩, ?_, ?_, rfl⟩
  · refine @chainSeg.cons _ _ ⟨s, q.head⟩ _ _ (hupdate_same _ _ _) ?_
    exact chainSeg_framed (fun p hp => hupdate_other _ _ _ (fun he => hfresh (he ▸ hp))) hchain
  · cases ps with
    | nil =>
      have : q.tail = none := htail
      simp [this]
    | cons b ps =>
      rw [htail]
      rw [if_neg (by simp), List.getLast?_cons_cons]
  · simp only [hsize, List.length_cons]
    push_cast
    ring
  · rw [valsIn_cons _ _ _ (hupdate_same _ _ _)]
    congr 1
    exact valsIn_congr_mem fun p hp => by
      unfold valueAt
      rw [hupdate_other _ _ _ (show p ≠ a1 from fun he => hfresh (he ▸ hp))]
  · intro p hp
    exact hupdate_other _ _ _ hp

/-- Running `q_insert_tail` on a fresh address: success, and the new node is linked
after the old tail (or becomes the only node). -/
theorem q_insert_tail_spec {q : QState} {ps : List Ptr} (hrepr : reprQ q ps) (s : Str)
    {a1 : Ptr} (hfresh : a1 ∉ ps) :
    ∃ q2, q_insert_tail (some q) s (some a1) true = (true, some q2) ∧
      reprQ q2 (ps ++ [a1]) ∧
      valsIn q2.heap (ps ++ [a1]) = valsIn q.heap ps ++ [s] ∧
      (∀ p, p ∉ ps → p ≠ a1 → q2.heap p = q.heap p) ∧ q2.size = q.size + 1 := by
  obtain ⟨hchain, htail, hsize⟩ := hrepr
  cases ps with
  | nil =>
    have ht : q.tail = none := htail
    refine ⟨⟨some a1, some a1, q.size + 1, hupdate q.heap a1 (some ⟨s, none⟩)⟩,
      ?_, ⟨?_, ?_, ?_⟩, ?_, ?_, rfl⟩
    · simp [q_insert_tail, ht]
    · exact @chainSeg.cons _ _ ⟨s, none⟩ _ _ (hupdate_same _ _ _) (chainSeg.nil none)
    · rfl
    · simp [hsize]
    · rw [show ([] : List Ptr) ++ [a1] = [a1] from rfl,
        valsIn_cons _ _ _ (hupdate_same _ _ _)]
      simp [valsIn]
    · intro p hp1 hp2
      exact hupdate_other _ _ _ hp2
  | cons b bs =>
    have hnodup : (b :: bs).Nodup := chain_nodup hchain
    obtain ⟨t, hts⟩ : ∃ t, (b :: bs).getLast? = some t := by
      cases hlast : (b :: bs).getLast? with
      | none =>
        rw [List.getLast?_eq_none_iff] at hlast
        cases hlast
      | some t => exact ⟨t, rfl⟩
    have htmem : t ∈ b :: bs := by
      obtain ⟨hne, rfl⟩ := List.mem_getLast?_eq_getLast (Option.mem_def.mpr hts)
      exact List.getLast_mem hne
    have hta1 : t ≠ a1 := fun he => hfresh (he ▸ htmem)
    have ht : q.tail = some t := by rw [htail, hts]
    have hchain1 : chainSeg (hupdate q.heap a1 (some ⟨s, none⟩)) q.head (b :: bs) none :=
      chainSeg_framed (fun p hp => hupdate_other _ _ _ (fun he => hfresh (he ▸ hp))) hchain
    have hchain2 : chainSeg (setNext (hupdate q.heap a1 (some ⟨s, none⟩)) t (some a1))
        q.head (b :: bs) (some a1) :=
      chainSeg_retarget (some a1) hchain1 hnodup hts
    have hlastnode : chainSeg (setNext (hupdate q.heap a1 (some ⟨s, none⟩)) t (some a1))
        (some a1) [a1] none := by
      refine @chainSeg.cons _ _ ⟨s, none⟩ _ _ ?_ (chainSeg.nil none)
      rw [setNext_other _ _ _ (Ne.symm hta1), hupdate_same]
    refine ⟨⟨q.head, some a1, q.size + 1,
        setNext (hupdate q.heap a1 (some ⟨s, none⟩)) t (some a1)⟩,
      ?_, ⟨?_, ?_, ?_⟩, ?_, ?_, rfl⟩
    · simp [q_insert_tail, ht]
    · exact chainSeg_append.mpr ⟨some a1, hchain2, hlastnode⟩
    · exact (List.getLast?_concat _).symm
    · simp only [hsize, List.length_append, List.length_cons, List.length_nil]
      push_cast
      ring
    · rw [valsIn_eq_map_valueAt, valsIn_eq_map_valueAt, List.map_append]
      congr 1
      · exact List.map_congr_left fun p hp => by
          rw [valueAt_setNext]
          unfold valueAt
          rw [hupdate_other _ _ _ (show p ≠ a1 from fun he => hfresh (he ▸ hp))]
      · simp only [List.map_cons, List.map_nil]
        rw [valueAt_setNext]
        unfold valueAt
        rw [hupdate_same]
        rfl
    · intro p hp1 hp2
      show setNext (hupdate q.heap a1 (some ⟨s, none⟩)) t (some a1) p = q.heap p
      rw [setNext_other _ _ _ (show p ≠ t from fun he => hp1 (he ▸ htmem)),
        hupdate_other _ _ _ hp2]

/-- Running `q_remove_head` on a non-empty queue with a non-null buffer: success,
the head node is unlinked and freed, and the buffer receives the payload
truncated to `bufsize - 1` bytes. -/
theorem q_remove_head_spec {q : QState} {p : Ptr} {ps : List Ptr}
    (hrepr : reprQ q (p :: ps)) (bufsize : Nat) :
    ∃ q2 nd, q.heap p = some nd ∧
      q_remove_head (some q) true bufsize =
        (true, some q2, some (nd.value.take (sizeSub1 bufsize))) ∧
      reprQ q2 ps ∧ q2.heap p = none ∧
      (∀ x, x ≠ p → q2.heap x = q.heap x) ∧ q2.size = q.size - 1 := by
  obtain ⟨hchain, htail, hsize⟩ := hrepr
  obtain ⟨hhd, nd, hnd, hrest⟩ := chainSeg_cons_inv hchain
  have hnodup := chain_nodup hchain
  have hpnotps : p ∉ ps := (List.nodup_cons.mp hnodup).1
  have hsize' : q.size = (ps.length : Int) + 1 := by
    rw [hsize]
    simp only [List.length_cons]
    push_cast
    ring
  refine ⟨⟨nd.next, if q.size - 1 = 0 then none else q.tail, q.size - 1,
      hupdate q.heap p none⟩, nd, hnd, ?_, ⟨?_, ?_, ?_⟩, ?_, ?_, rfl⟩
  · simp only [q_remove_head, hhd, hnd]
    rfl
  · exact chainSeg_framed
      (fun x hx => hupdate_other _ _ _ (fun he => hpnotps (he ▸ hx))) hrest
  · cases hps : ps with
    | nil =>
      have : q.size - 1 = 0 := by
        rw [hsize']
        simp [hps]
      simp [this]
    | cons c cs =>
      have hne : ¬ (q.size - 1 = 0) := by
        rw [hsize']
        simp [hps]
        omega
      rw [if_neg hne, htail, hps, List.getLast?_cons_cons]
  · rw [hsize']
    push_cast
    ring
  · exact hupdate_same _ _ _
  · intro x hx
    exact hupdate_other _ _ _ hx

/-- Correctness of the reversal loop: with the already reversed prefix chain
hanging from `l` and the remaining chain from `r`, the loop finishes with
the full reversed chain, touching only next links of nodes in `rs`. -/
theorem reverseLoop_spec :
    ∀ {rs : List Ptr} {fuel : Nat} {h : Heap} {l r : Option Ptr} {acc : List Ptr},
    chain h r rs → chainSeg h l acc none → (∀ p ∈ rs, p ∉ acc) → rs.length ≤ fuel →
    ∃ h2 lfin, reverseLoop fuel h l r = some (h2, lfin) ∧
      chain h2 lfin (rs.reverse ++ acc) ∧
      (∀ p, valueAt h2 p = valueAt h p) ∧
      (∀ p, p ∉ rs → h2 p = h p) := by
  intro rs
  induction rs with
  | nil =>
    intro fuel h l r acc hr hacc hdisj hfuel
    have : r = none := chainSeg_nil_inv hr
    subst this
    exact ⟨h, l, by rw [reverseLoop], hacc, fun p => rfl, fun p hp => rfl⟩
  | cons rp rs ih =>
    intro fuel h l r acc hr hacc hdisj hfuel
    obtain ⟨rfl, nd, hnd, hrest⟩ := chainSeg_cons_inv hr
    have hnodup := chain_nodup hr
    have hrpnotrs : rp ∉ rs := (List.nodup_cons.mp hnodup).1
    cases fuel with
    | zero => simp at hfuel
    | succ fuel =>
      have hrest2 : chain (setNext h rp l) nd.next rs :=
        chainSeg_framed (fun p hp => setNext_other _ _ _ (fun he => hrpnotrs (he ▸ hp))) hrest
      have hacc2 : chainSeg (setNext h rp l) (some rp) (rp :: acc) none := by
        refine @chainSeg.cons _ _ ⟨nd.value, l⟩ _ _ (setNext_same_of_mem _ _ _ hnd) ?_
        exact chainSeg_framed
          (fun p hp => setNext_other _ _ _
            (show p ≠ rp from fun he => hdisj rp (List.mem_cons_self _ _) (he ▸ hp))) hacc
      have hdisj2 : ∀ p ∈ rs, p ∉ rp :: acc := by
        intro p hp
        rw [List.mem_cons]
        rintro (rfl | hmem)
        · exact hrpnotrs hp
        · exact hdisj p (List.mem_cons_of_mem _ hp) hmem
      obtain ⟨h2, lfin, heq, hchain2, hvals, hframe⟩ :=
        ih hrest2 hacc2 hdisj2 (by simpa using hfuel)
      refine ⟨h2, lfin, ?_, ?_, ?_, ?_⟩
      · rw [show reverseLoop (fuel + 1) h l (some rp) =
          reverseLoop fuel (setNext h rp l) (some rp) nd.next by
            simp [reverseLoop, hnd]]
        exact heq
      · rw [show (rp :: rs).reverse ++ acc = rs.reverse ++ (rp :: acc) by simp]
        exact hchain2
      · intro p
        rw [hvals p, valueAt_setNext]
      · intro p hp
        rw [hframe p (fun hmem => hp (List.mem_cons_of_mem _ hmem)),
          setNext_other _ _ _ (show p ≠ rp from fun he => hp (he ▸ List.mem_cons_self rp rs))]

/-- Full specification of `q_reverse` on a valid queue: the chain is exactly
reversed in place, head and tail swap roles, no node is allocated or freed
and no payload is changed; an empty queue is left exactly as it was. -/
theorem q_reverse_spec {q : QState} {ps : List Ptr} (hrepr : reprQ q ps) {fuel : Nat}
    (hfuel : ps.length ≤ fuel) :
    ∃ q2, q_reverse fuel (some q) = some (some q2) ∧
      reprQ q2 ps.reverse ∧
      q2.head = q.tail ∧ q2.tail = q.head ∧ q2.size = q.size ∧
      valsIn q2.heap ps.reverse = (valsIn q.heap ps).reverse ∧
      (∀ p, valueAt q2.heap p = valueAt q.heap p) ∧
      (∀ p, p ∉ ps → q2.heap p = q.heap p) ∧
      (ps = [] → q2 = q) := by
  obtain ⟨hchain, htail, hsize⟩ := hrepr
  obtain ⟨h2, lfin, heq, hchain2, hvals, hframe⟩ :=
    @reverseLoop_spec ps fuel q.heap none q.head [] hchain (chainSeg.nil none) (by simp) hfuel
  rw [List.append_nil] at hchain2
  have hlfin : lfin = ps.reverse.head? := chain_head_eq hchain2
  have hheadrev : ps.reverse.head? = ps.getLast? := List.head?_reverse ps
  refine ⟨⟨lfin, q.head, q.size, h2⟩, ?_, ⟨hchain2, ?_, ?_⟩, ?_, rfl, rfl, ?_, hvals, hframe, ?_⟩
  · simp only [q_reverse, heq]
  · show q.head = ps.reverse.getLast?
    rw [List.getLast?_reverse]
    exact chain_head_eq hchain
  · show q.size = (ps.reverse.length : Int)
    rw [List.length_reverse]
    exact hsize
  · show lfin = q.tail
    rw [hlfin, hheadrev, htail]
  · show valsIn h2 ps.reverse = (valsIn q.heap ps).reverse
    rw [valsIn_congr hvals, valsIn_eq_map_valueAt, valsIn_eq_map_valueAt, List.map_reverse]
  · intro hps
    subst hps
    have h2eq : h2 = q.heap := funext fun p => hframe p (by simp)
    have hl : lfin = none := by
      rw [hlfin]
      rfl
    have hh : q.head = none := chain_head_eq hchain
    have ht : q.tail = none := htail
    rw [QState.ext_iff']
    refine ⟨by rw [hl, hh], ?_, rfl, h2eq⟩
    show q.head = q.tail
    rw [hh, ht]

/-- Two heaps that realise the same chain over the same addresses with the
same payloads agree on those addresses. -/
theorem chainSeg_determines {h h2 : Heap} :
    ∀ {ps : List Ptr} {hd tl : Option Ptr},
    chainSeg h hd ps tl → chainSeg h2 hd ps tl →
    (∀ p ∈ ps, valueAt h2 p = valueAt h p) → ∀ p ∈ ps, h2 p = h p := by
  intro ps
  induction ps with
  | nil => intro hd tl hc hc2 hv p hp; simp at hp
  | cons a ps ih =>
    intro hd tl hc hc2 hv p hp
    obtain ⟨rfl, nd, hnd, hrest⟩ := chainSeg_cons_inv hc
    obtain ⟨-, nd2, hnd2, hrest2⟩ := chainSeg_cons_inv hc2
    have hveq : nd2.value = nd.value := by
      have := hv a (List.mem_cons_self _ _)
      rw [valueAt, valueAt, hnd, hnd2] at this
      simpa using this
    have hnexteq : nd2.next = nd.next := by
      cases ps with
      | nil =>
        rw [chainSeg_nil_inv hrest, chainSeg_nil_inv hrest2]
      | cons b ps =>
        rw [(chainSeg_cons_inv hrest).1, (chainSeg_cons_inv hrest2).1]
    have hndeq : nd2 = nd := by
      cases nd
      cases nd2
      simp only at hveq hnexteq
      rw [hveq, hnexteq]
    rcases List.mem_cons.mp hp with rfl | hp
    · rw [hnd, hnd2, hndeq]
    · rw [hnexteq] at hrest2
      exact ih hrest hrest2 (fun x hx => hv x (List.mem_cons_of_mem _ hx)) p hp

/-- Reversing twice restores the queue exactly: every next link, the head,
the tail, the size and the whole heap. -/
theorem q_reverse_involutive {q : QState} {ps : List Ptr} (hrepr : reprQ q ps) {fuel : Nat}
    (hfuel : ps.length ≤ fuel) :
    ∃ q1, q_reverse fuel (some q) = some (some q1) ∧
      q_reverse fuel (some q1) = some (some q) := by
  obtain ⟨q1, heq1, hrepr1, hh1, ht1, hs1, hv1, hvals1, hframe1, -⟩ := q_reverse_spec hrepr hfuel
  have hfuel2 : ps.reverse.length ≤ fuel := by simpa using hfuel
  obtain ⟨q2, heq2, hrepr2, hh2, ht2, hs2, hv2, hvals2, hframe2, -⟩ :=
    q_reverse_spec hrepr1 hfuel2
  have hq2q : q2 = q := by
    obtain ⟨hchain, htail, hsize⟩ := hrepr
    obtain ⟨hchain2, htail2, hsize2⟩ := hrepr2
    rw [List.reverse_reverse] at hchain2
    have hhead : q2.head = q.head := by rw [hh2, ht1]
    rw [hhead] at hchain2
    have hvalspt : ∀ p, valueAt q2.heap p = valueAt q.heap p := by
      intro p
      rw [hvals2 p, hvals1 p]
    have hheapeq : q2.heap = q.heap := by
      funext p
      by_cases hp : p ∈ ps
      · exact chainSeg_determines hchain hchain2 (fun x _ => hvalspt x) p hp
      · rw [hframe2 p (by simpa using hp), hframe1 p hp]
    rw [QState.ext_iff']
    refine ⟨hhead, ?_, ?_, hheapeq⟩
    · rw [ht2, hh1]
    · rw [hs2, hs1]
  rw [hq2q] at heq2
  exact ⟨q1, heq1, heq2⟩

theorem mergeL_nil_left (r : List Str) : mergeL [] r = r := by
  rw [mergeL]

theorem mergeL_nil_right (l : List Str) : mergeL l [] = l := by
  cases l with
  | nil => rw [mergeL]
  | cons a as =>
    rw [mergeL]
    simp

theorem mergeL_cons_cons (a b : Str) (as bs : List Str) :
    mergeL (a :: as) (b :: bs) =
      if strcmp a b = .lt then a :: mergeL as (b :: bs) else b :: mergeL (a :: as) bs := by
  rw [mergeL]

/-- Correctness of the merge loop: merging two disjoint NULL-terminated
chains yields a chain over the union of their addresses whose value sequence
is `mergeL` of the two value sequences; only next links inside the two
chains are modified. -/
theorem mergeLoop_spec :
    ∀ {fuel : Nat} {h : Heap} {l r : Option Ptr} {ls rs : List Ptr},
    chain h l ls → chain h r rs → (∀ p ∈ ls, p ∉ rs) →
    ls.length + rs.length ≤ fuel + 1 →
    ∃ h2 m ms, mergeLoop fuel h l r = some (h2, m) ∧
      chain h2 m ms ∧ ms.Perm (ls ++ rs) ∧
      valsIn h2 ms = mergeL (valsIn h ls) (valsIn h rs) ∧
      (∀ p, valueAt h2 p = valueAt h p) ∧
      (∀ p, p ∉ ls → p ∉ rs → h2 p = h p) := by
  intro fuel
  induction fuel with
  | zero =>
    intro h l r ls rs hls hrs hdisj hlen
    cases ls with
    | nil =>
      have : l = none := chainSeg_nil_inv hls
      subst this
      exact ⟨h, r, rs, by simp [mergeLoop], hrs, by simp,
        by rw [show valsIn h [] = [] from rfl, mergeL_nil_left], fun p => rfl,
        fun p h1 h2 => rfl⟩
    | cons lp ls' =>
      cases rs with
      | nil =>
        have : r = none := chainSeg_nil_inv hrs
        subst this
        obtain ⟨rfl, lnd, hlp, hrest⟩ := chainSeg_cons_inv hls
        refine ⟨h, some lp, lp :: ls', by simp [mergeLoop], hls, by simp, ?_, fun p => rfl,
          fun p h1 h2 => rfl⟩
        rw [show valsIn h [] = [] from rfl, mergeL_nil_right]
      | cons rp rs' =>
        simp only [List.length_cons] at hlen
        omega
  | succ fuel ih =>
    intro h l r ls rs hls hrs hdisj hlen
    cases ls with
    | nil =>
      have : l = none := chainSeg_nil_inv hls
      subst this
      exact ⟨h, r, rs, by simp [mergeLoop], hrs, by simp,
        by rw [show valsIn h [] = [] from rfl, mergeL_nil_left], fun p => rfl,
        fun p h1 h2 => rfl⟩
    | cons lp ls' =>
      obtain ⟨rfl, lnd, hlp, hlrest⟩ := chainSeg_cons_inv hls
      cases rs with
      | nil =>
        have : r = none := chainSeg_nil_inv hrs
        subst this
        refine ⟨h, some lp, lp :: ls', by simp [mergeLoop], hls, by simp, ?_, fun p => rfl,
          fun p h1 h2 => rfl⟩
        rw [show valsIn h [] = [] from rfl, mergeL_nil_right]
      | cons rp rs' =>
        obtain ⟨rfl, rnd, hrp, hrrest⟩ := chainSeg_cons_inv hrs
        have hlnodup := chain_nodup hls
        have hrnodup := chain_nodup hrs
        have hlpnotls : lp ∉ ls' := (List.nodup_cons.mp hlnodup).1
        have hrpnotrs : rp ∉ rs' := (List.nodup_cons.mp hrnodup).1
        have hlpnotrs : lp ∉ rp :: rs' := hdisj lp (List.mem_cons_self _ _)
        have hvl : valsIn h (lp :: ls') = lnd.value :: valsIn h ls' := valsIn_cons _ _ _ hlp
        have hvr : valsIn h (rp :: rs') = rnd.value :: valsIn h rs' := valsIn_cons _ _ _ hrp
        by_cases hcmp : strcmp lnd.value rnd.value = .lt
        · obtain ⟨h2, m, ms, heq, hchain, hperm, hvals, hvalpt, hframe⟩ :=
            ih hlrest hrs (fun p hp => hdisj p (List.mem_cons_of_mem _ hp))
              (by simp only [List.length_cons] at hlen ⊢; omega)
          have hlpnotms : lp ∉ ms := by
            intro hmem
            rcases List.mem_append.mp (hperm.mem_iff.mp hmem) with hmem | hmem
            · exact hlpnotls hmem
            · exact hlpnotrs hmem
          have h2lp : h2 lp = some lnd := by
            rw [hframe lp hlpnotls hlpnotrs, hlp]
          refine ⟨setNext h2 lp m, some lp, lp :: ms, ?_, ?_, ?_, ?_, ?_, ?_⟩
          · rw [show mergeLoop (fuel + 1) h (some lp) (some rp) =
              match mergeLoop fuel h lnd.next (some rp) with
              | none => none
              | some (h2, rest) => some (setNext h2 lp rest, some lp) by
                simp [mergeLoop, hlp, hrp, hcmp]]
            rw [heq]
          · exact chainSeg.cons (setNext_same_of_mem _ _ _ h2lp)
              (chainSeg_framed
                (fun p hp => setNext_other _ _ _
                  (show p ≠ lp from fun he => hlpnotms (he ▸ hp))) hchain)
          · exact (hperm.cons lp).trans (by rfl)
          · rw [valsIn_cons _ _ _ (setNext_same_of_mem _ _ _ h2lp)]
            rw [hvl, hvr, mergeL_cons_cons, if_pos hcmp, ← hvr]
            congr 1
            rw [← hvals]
            exact valsIn_congr (fun p => valueAt_setNext _ _ _ _) ms
          · intro p
            rw [valueAt_setNext, hvalpt]
          · intro p hp1 hp2
            rw [setNext_other _ _ _
              (show p ≠ lp from fun he => hp1 (he ▸ List.mem_cons_self lp ls')),
              hframe p (fun hm => hp1 (List.mem_cons_of_mem _ hm)) hp2]
        · have hdisj2 : ∀ p ∈ lp :: ls', p ∉ rs' :=
            fun p hp hm => hdisj p hp (List.mem_cons_of_mem _ hm)
          obtain ⟨h2, m, ms, heq, hchain, hperm, hvals, hvalpt, hframe⟩ :=
            ih hls hrrest hdisj2
              (by simp only [List.length_cons] at hlen ⊢; omega)
          have hrpnotls : rp ∉ lp :: ls' := by
            intro hmem
            exact hdisj rp hmem (List.mem_cons_self _ _)
          have hrpnotms : rp ∉ ms := by
            intro hmem
            rcases List.mem_append.mp (hperm.mem_iff.mp hmem) with hmem | hmem
            · exact hrpnotls hmem
            · exact hrpnotrs hmem
          have h2rp : h2 rp = some rnd := by
            rw [hframe rp hrpnotls hrpnotrs, hrp]
          refine ⟨setNext h2 rp m, some rp, rp :: ms, ?_, ?_, ?_, ?_, ?_, ?_⟩
          · rw [show mergeLoop (fuel + 1) h (some lp) (some rp) =
              match mergeLoop fuel h (some lp) rnd.next with
              | none => none
              | some (h2, rest) => some (setNext h2 rp rest, some rp) by
                simp [mergeLoop, hlp, hrp, hcmp]]
            rw [heq]
          · exact chainSeg.cons (setNext_same_of_mem _ _ _ h2rp)
              (chainSeg_framed
                (fun p hp => setNext_other _ _ _
                  (show p ≠ rp from fun he => hrpnotms (he ▸ hp))) hchain)
          · refine (hperm.cons rp).trans ?_
            rw [List.perm_iff_count]
            intro c
            simp only [List.count_append, List.count_cons, List.count_nil]
            omega
          · rw [valsIn_cons _ _ _ (setNext_same_of_mem _ _ _ h2rp)]
            rw [hvl, hvr, mergeL_cons_cons, if_neg hcmp, ← hvl]
            congr 1
            rw [← hvals]
            exact valsIn_congr (fun p => valueAt_setNext _ _ _ _) ms
          · intro p
            rw [valueAt_setNext, hvalpt]
          · intro p hp1 hp2
            rw [setNext_other _ _ _
              (show p ≠ rp from fun he => hp2 (he ▸ List.mem_cons_self rp rs')),
              hframe p hp1 (fun hm => hp2 (List.mem_cons_of_mem _ hm))]

theorem chain_cons_start {h : Heap} {a : Ptr} {ls : List Ptr}
    (hls : chain h (some a) ls) :
    ∃ ls' nd, ls = a :: ls' ∧ h a = some nd ∧ chainSeg h nd.next ls' none := by
  cases ls with
  | nil =>
    have : (some a : Option Ptr) = none := chainSeg_nil_inv hls
    cases this
  | cons a0 ls' =>
    obtain ⟨ha, nd, hnd, hrest⟩ := chainSeg_cons_inv hls
    have : a0 = a := by cases ha; rfl
    subst this
    exact ⟨ls', nd, rfl, hnd, hrest⟩

/-- Correctness of the slow/fast split walk: starting with the slow pointer
at `a` (remaining chain `ls`) and the fast pointer chain `rs`, the walk stops
with the slow pointer on the last node of the first `rs.length / 2 + 1`
elements of `ls`. -/
theorem splitLoop_spec :
    ∀ {fuel : Nat} {h : Heap} {a : Ptr} {ls : List Ptr} {r : Option Ptr} {rs : List Ptr},
    chain h (some a) ls → chain h r rs →
    rs.length + 1 ≤ ls.length → rs.length ≤ fuel + 1 →
    ∃ lE pre post, splitLoop fuel h a r = some lE ∧
      ls = pre ++ post ∧ pre.length = rs.length / 2 + 1 ∧ pre.getLast? = some lE := by
  intro fuel
  induction fuel with
  | zero =>
    intro h a ls r rs hls hrs hlen hfuel
    obtain ⟨ls', and, rfl, hand, hrest⟩ := chain_cons_start hls
    cases rs with
    | nil =>
      have : r = none := chainSeg_nil_inv hrs
      subst this
      exact ⟨a, [a], ls', by rw [splitLoop], rfl, by simp, rfl⟩
    | cons x rs' =>
      obtain ⟨rfl, xnd, hx, hxrest⟩ := chainSeg_cons_inv hrs
      cases rs' with
      | nil =>
        have hxnext : xnd.next = none := chainSeg_nil_inv hxrest
        exact ⟨a, [a], ls', by rw [splitLoop]; simp [hx, hxnext], rfl, by simp, rfl⟩
      | cons y rs2 =>
        simp only [List.length_cons] at hfuel
        omega
  | succ fuel ih =>
    intro h a ls r rs hls hrs hlen hfuel
    obtain ⟨ls', and, rfl, hand, hrest⟩ := chain_cons_start hls
    cases rs with
    | nil =>
      have : r = none := chainSeg_nil_inv hrs
      subst this
      exact ⟨a, [a], ls', by rw [splitLoop], rfl, by simp, rfl⟩
    | cons x rs' =>
      obtain ⟨rfl, xnd, hx, hxrest⟩ := chainSeg_cons_inv hrs
      cases rs' with
      | nil =>
        have hxnext : xnd.next = none := chainSeg_nil_inv hxrest
        exact ⟨a, [a], ls', by rw [splitLoop]; simp [hx, hxnext], rfl, by simp, rfl⟩
      | cons y rs2 =>
        obtain ⟨hxnext, ynd, hy, hyrest⟩ := chainSeg_cons_inv hxrest
        have hls'len : rs2.length + 2 ≤ ls'.length := by
          simp only [List.length_cons] at hlen
          omega
        cases hls2 : ls' with
        | nil =>
          rw [hls2] at hls'len
          simp at hls'len
        | cons a2 ls'' =>
          rw [hls2] at hrest hls'len
          obtain ⟨ha2eq, a2nd, ha2, ha2rest⟩ := chainSeg_cons_inv hrest
          have hchain2 : chain h (some a2) (a2 :: ls'') := by
            rw [← ha2eq]
            exact hrest
          obtain ⟨lE, pre', post', heq, hsplit, hprelen, hlast⟩ :=
            ih hchain2 hyrest
              (by simp only [List.length_cons] at hls'len ⊢; omega)
              (by simp only [List.length_cons] at hfuel; omega)
          have hstep : splitLoop (fuel + 1) h a (some x) = splitLoop fuel h a2 ynd.next := by
            rw [splitLoop]
            simp only [hx, hxnext, hand, ha2eq, hy]
          refine ⟨lE, a :: pre', post', by rw [hstep]; exact heq, ?_, ?_, ?_⟩
          · rw [List.cons_append, ← hsplit]
          · simp only [List.length_cons, hprelen]
            omega
          · cases hpre : pre' with
            | nil =>
              rw [hpre] at hprelen
              simp at hprelen
            | cons q qs =>
              rw [List.getLast?_cons_cons, ← hpre]
              exact hlast

theorem merge_sortVals_nil : merge_sortVals [] = [] := by rw [merge_sortVals]

theorem merge_sortVals_single (a : Str) : merge_sortVals [a] = [a] := by rw [merge_sortVals]

/-- Correctness of the tail fix-up walk: starting anywhere on a
NULL-terminated chain, the walk stops at the last node of that chain. -/
theorem tailWalkLoop_spec :
    ∀ {fuel : Nat} {h : Heap} {t : Option Ptr} {ts : List Ptr},
    chain h t ts → ts.length ≤ fuel + 1 →
    tailWalkLoop fuel h t = some ts.getLast? := by
  intro fuel
  induction fuel with
  | zero =>
    intro h t ts hts hlen
    cases ts with
    | nil =>
      have : t = none := chainSeg_nil_inv hts
      subst this
      rw [tailWalkLoop]
      rfl
    | cons p ts' =>
      obtain ⟨rfl, nd, hnd, hrest⟩ := chainSeg_cons_inv hts
      cases ts' with
      | nil =>
        have hnext : nd.next = none := chainSeg_nil_inv hrest
        rw [tailWalkLoop]
        simp [hnd, hnext]
      | cons q ts2 =>
        simp only [List.length_cons] at hlen
        omega
  | succ fuel ih =>
    intro h t ts hts hlen
    cases ts with
    | nil =>
      have : t = none := chainSeg_nil_inv hts
      subst this
      rw [tailWalkLoop]
      rfl
    | cons p ts' =>
      obtain ⟨rfl, nd, hnd, hrest⟩ := chainSeg_cons_inv hts
      cases ts' with
      | nil =>
        have hnext : nd.next = none := chainSeg_nil_inv hrest
        rw [tailWalkLoop]
        simp [hnd, hnext]
      | cons q ts2 =>
        obtain ⟨hq, qnd, hqnd, hqrest⟩ := chainSeg_cons_inv hrest
        have hstep : tailWalkLoop (fuel + 1) h (some p) = tailWalkLoop fuel h nd.next := by
          rw [tailWalkLoop]
          simp [hnd, hq]
        rw [hstep, List.getLast?_cons_cons]
        exact ih hrest (by simp only [List.length_cons] at hlen ⊢; omega)

theorem valsIn_append (h : Heap) (l1 l2 : List Ptr) :
    valsIn h (l1 ++ l2) = valsIn h l1 ++ valsIn h l2 := by
  simp [valsIn]

theorem valsIn_length (h : Heap) (ps : List Ptr) : (valsIn h ps).length = ps.length := by
  simp [valsIn]

/-- Correctness of the heap-level `merge_sort`: on a valid chain it succeeds,
returns a chain over a permutation of the same addresses whose value
sequence is `merge_sortVals` of the input value sequence, changes no
payload and no node outside the chain, and neither allocates nor frees. -/
theorem merge_sort_spec :
    ∀ {fuel : Nat} {h : Heap} {hd : Option Ptr} {ps : List Ptr},
    chain h hd ps → ps.length ≤ fuel →
    ∃ h2 hd2 ps2, merge_sort fuel h hd = some (h2, hd2) ∧
      chain h2 hd2 ps2 ∧ ps2.Perm ps ∧
      valsIn h2 ps2 = merge_sortVals (valsIn h ps) ∧
      (∀ p, valueAt h2 p = valueAt h p) ∧
      (∀ p, p ∉ ps → h2 p = h p) := by
  intro fuel
  induction fuel with
  | zero =>
    intro h hd ps hps hlen
    have hps0 : ps = [] := List.length_eq_zero.mp (Nat.le_zero.mp hlen)
    subst hps0
    have : hd = none := chainSeg_nil_inv hps
    subst this
    exact ⟨h, none, [], by rw [merge_sort], hps, by simp,
      by rw [show valsIn h [] = [] from rfl, merge_sortVals_nil],
      fun p => rfl, fun p hp => rfl⟩
  | succ fuel ih =>
    intro h hd ps hps hlen
    cases ps with
    | nil =>
      have : hd = none := chainSeg_nil_inv hps
      subst this
      exact ⟨h, none, [], by rw [merge_sort], hps, by simp,
        by rw [show valsIn h [] = [] from rfl, merge_sortVals_nil],
        fun p => rfl, fun p hp => rfl⟩
    | cons p0 ps' =>
      obtain ⟨rfl, nd0, hnd0, hrest0⟩ := chainSeg_cons_inv hps
      cases ps' with
      | nil =>
        have hnext : nd0.next = none := chainSeg_nil_inv hrest0
        refine ⟨h, some p0, [p0], ?_, hps, by simp, ?_, fun p => rfl, fun p hp => rfl⟩
        · rw [merge_sort]
          simp [hnd0, hnext]
        · rw [valsIn_cons _ _ _ hnd0, show valsIn h [] = [] from rfl, merge_sortVals_single]
      | cons p1 rest =>
        have hnd0next : nd0.next = some p1 := (chainSeg_cons_inv hrest0).1
        have hnodup : (p0 :: p1 :: rest).Nodup := chain_nodup hps
        have hlen' : rest.length + 2 ≤ fuel + 1 := by
          simp only [List.length_cons] at hlen
          omega
        obtain ⟨lE, pre, post, hsplit, hpp, hprelen, hprelast⟩ :=
          @splitLoop_spec fuel h p0 (p0 :: p1 :: rest) nd0.next (p1 :: rest) hps hrest0
            (by simp) (by simp only [List.length_cons]; omega)
        have hlena : pre.length + post.length = rest.length + 2 := by
          have := congrArg List.length hpp
          simp only [List.length_append, List.length_cons] at this
          omega
        have hprelen2 : pre.length = (rest.length + 1) / 2 + 1 := by
          rw [hprelen]
          simp only [List.length_cons]
        have hpre1 : 1 ≤ pre.length := by omega
        have hpost1 : 1 ≤ post.length := by omega
        have hnodup2 : (pre ++ post).Nodup := hpp ▸ hnodup
        obtain ⟨hprenodup, hpostnodup, hdisjpp⟩ := List.nodup_append.mp hnodup2
        have hlEmem : lE ∈ pre := by
          obtain ⟨hne, rfl⟩ := List.mem_getLast?_eq_getLast (Option.mem_def.mpr hprelast)
          exact List.getLast_mem hne
        obtain ⟨mid, hpreseg, hpostseg⟩ := chainSeg_append.mp (hpp ▸ hps)
        -- the last node of the first half and its stored successor
        obtain ⟨pre', hpre'⟩ : ∃ pre', pre = p0 :: pre' := by
          cases hprecase : pre with
          | nil =>
            rw [hprecase] at hpre1
            simp at hpre1
          | cons q pre' =>
            rw [hprecase] at hpp
            rw [List.cons_append] at hpp
            have : p0 = q := (List.cons.injEq _ _ _ _).mp hpp |>.1
            exact ⟨pre', by rw [this]⟩
        obtain ⟨lE', lend, hlast', hlendeq, hlendnext⟩ := chain_last (hpre' ▸ hpreseg)
        have hlEeq : lE' = lE := by
          rw [← hpre'] at hlast'
          rw [hprelast] at hlast'
          cases hlast'
          rfl
        rw [hlEeq] at hlast' hlendeq
        rw [hnd0next] at hsplit
        -- cut the chain: first half now NULL-terminated
        have hchainpre1 : chain (setNext h lE none) (some p0) pre :=
          chainSeg_retarget none hpreseg hprenodup hprelast
        have hchainpost1 : chain (setNext h lE none) mid post :=
          chainSeg_framed
            (fun p hp => setNext_other _ _ _
              (show p ≠ lE from fun he => hdisjpp (he ▸ hlEmem) hp)) hpostseg
        have hprefuel : pre.length ≤ fuel := by omega
        have hpostfuel : post.length ≤ fuel := by omega
        obtain ⟨h2, lhd, ps1', heq1, hchain1, hperm1, hvals1, hvpt1, hframe1⟩ :=
          ih hchainpre1 hprefuel
        have hchainpost2 : chain h2 mid post :=
          chainSeg_framed (fun p hp => hframe1 p (fun hm => hdisjpp hm hp)) hchainpost1
        obtain ⟨h3, rhd, ps2', heq2, hchain2, hperm2, hvals2, hvpt2, hframe2⟩ :=
          ih hchainpost2 hpostfuel
        have hchain1' : chain h3 lhd ps1' :=
          chainSeg_framed
            (fun p hp => hframe2 p (fun hm => hdisjpp (hperm1.mem_iff.mp hp) hm)) hchain1
        have hdisj12 : ∀ p ∈ ps1', p ∉ ps2' := by
          intro p hp hm
          exact hdisjpp (hperm1.mem_iff.mp hp) (hperm2.mem_iff.mp hm)
        have hmergefuel : ps1'.length + ps2'.length ≤ fuel + 1 := by
          rw [hperm1.length_eq, hperm2.length_eq]
          omega
        obtain ⟨h4, m, ms, heq3, hchainm, hpermm, hvalsm, hvptm, hframem⟩ :=
          mergeLoop_spec hchain1' hchain2 hdisj12 hmergefuel
        refine ⟨h4, m, ms, ?_, hchainm, ?_, ?_, ?_, ?_⟩
        · rw [merge_sort]
          simp only [hnd0, hnd0next, hsplit, hlendeq, hlendnext, heq1, heq2, heq3]
        · exact hpermm.trans ((hperm1.append hperm2).trans (hpp ▸ List.Perm.refl _))
        · have e1 : valsIn h3 ps1' = merge_sortVals (valsIn h pre) := by
            rw [valsIn_congr hvpt2, hvals1, valsIn_congr (fun p => valueAt_setNext _ _ _ _)]
          have e2 : valsIn h3 ps2' = merge_sortVals (valsIn h post) := by
            rw [hvals2]
            congr 1
            rw [valsIn_congr hvpt1, valsIn_congr (fun p => valueAt_setNext _ _ _ _)]
          have hlenvals : 2 ≤ (valsIn h (p0 :: p1 :: rest)).length := by
            rw [valsIn_length]
            simp
          have hprevlen : (valsIn h pre).length = pre.length := valsIn_length _ _
          have happlen : (valsIn h pre ++ valsIn h post).length = rest.length + 2 := by
            rw [List.length_append, valsIn_length, valsIn_length]
            omega
          rw [hvalsm, e1, e2, merge_sortVals_eq_two hlenvals]
          rw [show valsIn h (p0 :: p1 :: rest) = valsIn h pre ++ valsIn h post by
            rw [hpp, valsIn_append]]
          rw [List.take_left' (by rw [hprevlen, happlen]; omega),
            List.drop_left' (by rw [hprevlen, happlen]; omega)]
        · intro p
          rw [hvptm, hvpt2, hvpt1, valueAt_setNext]
        · intro p hp
          have hppre : p ∉ pre := fun hm => hp (by rw [hpp]; exact List.mem_append.mpr (.inl hm))
          have hppost : p ∉ post := fun hm => hp (by rw [hpp]; exact List.mem_append.mpr (.inr hm))
          rw [hframem p (fun hm => hppre (hperm1.mem_iff.mp hm))
              (fun hm => hppost (hperm2.mem_iff.mp hm)),
            hframe2 p hppost, hframe1 p hppre,
            setNext_other _ _ _ (show p ≠ lE from fun he => hppre (he ▸ hlEmem))]

/-- Full specification of `q_sort` on a valid queue: it succeeds, the value
sequence head-to-tail becomes `merge_sortVals` of the old one, the node
count and payloads are unchanged, the tail invariant is re-established, and
queues with at most one node are left exactly as they were. -/
theorem q_sort_spec {q : QState} {ps : List Ptr} (hrepr : reprQ q ps) {fuel : Nat}
    (hfuel : ps.length ≤ fuel) :
    ∃ q2 ps2, q_sort fuel (some q) = some (some q2) ∧
      reprQ q2 ps2 ∧ ps2.Perm ps ∧
      valsIn q2.heap ps2 = merge_sortVals (valsIn q.heap ps) ∧
      q2.size = q.size ∧
      (∀ p, valueAt q2.heap p = valueAt q.heap p) ∧
      (∀ p, p ∉ ps → q2.heap p = q.heap p) ∧
      (ps = [] → q2 = q) ∧ (ps.length = 1 → q2 = q) := by
  obtain ⟨hchain, htail, hsize⟩ := hrepr
  cases ps with
  | nil =>
    have hh : q.head = none := chain_head_eq hchain
    have ht : q.tail = none := htail
    refine ⟨q, [], ?_, ⟨hchain, htail, hsize⟩, by simp, ?_, rfl, fun p => rfl, fun p hp => rfl,
      fun hp => rfl, fun hp => rfl⟩
    · have hms : merge_sort fuel q.heap none = some (q.heap, none) := by rw [merge_sort]
      have htw : tailWalkLoop fuel q.heap none = some none := by rw [tailWalkLoop]
      have hqeq : (⟨none, none, q.size, q.heap⟩ : QState) = q := by
        rw [QState.ext_iff']
        exact ⟨hh.symm, ht.symm, rfl, rfl⟩
      rw [q_sort]
      simp only [hh, ht, hms, htw, hqeq]
    · rw [show valsIn q.heap [] = [] from rfl, merge_sortVals_nil]
  | cons p ps' =>
    obtain ⟨h2, hd2, ps2, heqms, hchain2, hperm, hvals, hvpt, hframe⟩ :=
      merge_sort_spec hchain hfuel
    obtain ⟨t, hts⟩ : ∃ t, (p :: ps').getLast? = some t := by
      cases hlast : (p :: ps').getLast? with
      | none =>
        rw [List.getLast?_eq_none_iff] at hlast
        cases hlast
      | some t => exact ⟨t, rfl⟩
    have ht : q.tail = some t := by rw [htail, hts]
    have htmem : t ∈ p :: ps' := by
      obtain ⟨hne, rfl⟩ := List.mem_getLast?_eq_getLast (Option.mem_def.mpr hts)
      exact List.getLast_mem hne
    have htmem2 : t ∈ ps2 := hperm.mem_iff.mpr htmem
    obtain ⟨pre, suf, hps2eq, hsufchain⟩ := chain_mem_suffix hchain2 htmem2
    have hsuflen : (t :: suf).length ≤ fuel + 1 := by
      have hlen2 := congrArg List.length hps2eq
      rw [hperm.length_eq] at hlen2
      simp only [List.length_append, List.length_cons] at hlen2 ⊢
      simp only [List.length_cons] at hfuel
      omega
    have hwalk : tailWalkLoop fuel h2 q.tail = some ((t :: suf).getLast?) := by
      rw [ht]
      exact tailWalkLoop_spec hsufchain hsuflen
    have htl2 : (t :: suf).getLast? = ps2.getLast? := by
      rw [hps2eq]
      exact (List.getLast?_append_of_ne_nil pre (by simp)).symm
    refine ⟨⟨hd2, ps2.getLast?, q.size, h2⟩, ps2, ?_, ⟨hchain2, rfl, ?_⟩, hperm, hvals, rfl,
      hvpt, hframe, ?_, ?_⟩
    · rw [q_sort]
      simp only [heqms, hwalk, htl2]
    · show q.size = (ps2.length : Int)
      rw [hperm.length_eq]
      exact hsize
    · intro hcontra
      cases hcontra
    · intro hlen1
      have hps' : ps' = [] := by
        simp only [List.length_cons] at hlen1
        exact List.length_eq_zero.mp (by omega)
      subst hps'
      -- singleton chain: merge_sort and the tail walk are both no-ops
      obtain ⟨hhd, nd, hnd, hrest⟩ := chainSeg_cons_inv hchain
      have hndnext : nd.next = none := chainSeg_nil_inv hrest
      have heqms2 : merge_sort fuel q.heap q.head = some (q.heap, some p) := by
        rw [hhd, merge_sort]
        simp [hnd, hndnext]
      rw [heqms] at heqms2
      have hh2 : h2 = q.heap := by
        cases heqms2
        rfl
      have hhd2 : hd2 = some p := by
        cases heqms2
        rfl
      have hps2 : ps2 = [p] := by
        subst hh2 hhd2
        exact chain_unique hchain2 (hhd ▸ hchain)
      rw [QState.ext_iff']
      refine ⟨?_, ?_, rfl, ?_⟩
      · show hd2 = q.head
        rw [hhd2, hhd]
      · show ps2.getLast? = q.tail
        rw [hps2, htail]
      · exact hh2

/-! ### Operation sequences

A caller session: any interleaving of the public mutating operations on one
queue constructed by `q_new`.  Insert operations carry the outcomes of their
two allocations; fresh node addresses are drawn from a counter, mirroring
the freshness guarantee of `malloc`. -/

inductive Op where
  | insH : Str → Bool → Bool → Op
  | insT : Str → Bool → Bool → Op
  | remH : Bool → Nat → Op
  | rev : Op
  | srt : Op

/-- Run a sequence of operations, threading the queue, the allocation
counter and the numbers of successful inserts and successful removes.
Reverse and sort receive fuel `size + 1`, which the invariant proves
sufficient. -/
def runC : QState → Ptr → Int → Int → List Op → Option (QState × Ptr × Int × Int)
  | q, c, ins, rem, [] => some (q, c, ins, rem)
  | q, c, ins, rem, op :: ops =>
    match op with
    | .insH s ok1 ok2 =>
      match q_insert_head (some q) s (if ok1 then some c else none) ok2 with
      | (b, some q2) => runC q2 (c + 1) (if b then ins + 1 else ins) rem ops
      | (_, none) => none
    | .insT s ok1 ok2 =>
      match q_insert_tail (some q) s (if ok1 then some c else none) ok2 with
      | (b, some q2) => runC q2 (c + 1) (if b then ins + 1 else ins) rem ops
      | (_, none) => none
    | .remH spOk bufsize =>
      match q_remove_head (some q) spOk bufsize with
      | (b, some q2, _) => runC q2 c ins (if b then rem + 1 else rem) ops
      | (_, none, _) => none
    | .rev =>
      match q_reverse (q.size.toNat + 1) (some q) with
      | some (some q2) => runC q2 c ins rem ops
      | _ => none
    | .srt =>
      match q_sort (q.size.toNat + 1) (some q) with
      | some (some q2) => runC q2 c ins rem ops
      | _ => none

/-- Number of insert operations in a sequence. -/
def numIns : List Op → Int
  | [] => 0
  | .insH _ _ _ :: ops => numIns ops + 1
  | .insT _ _ _ :: ops => numIns ops + 1
  | .remH _ _ :: ops => numIns ops
  | .rev :: ops => numIns ops
  | .srt :: ops => numIns ops

/-- Both allocations of an insert operation succeed. -/
def Op.allocOk : Op → Prop
  | .insH _ ok1 ok2 => ok1 = true ∧ ok2 = true
  | .insT _ ok1 ok2 => ok1 = true ∧ ok2 = true
  | .remH _ _ => True
  | .rev => True
  | .srt => True

theorem runC_spec : ∀ (ops : List Op) (q : QState) (c : Ptr) (ins rem : Int) (ps : List Ptr),
    reprQ q ps → (∀ p ∈ ps, p < c) →
    ∃ q2 c2 ins2 rem2 ps2, runC q c ins rem ops = some (q2, c2, ins2, rem2) ∧
      reprQ q2 ps2 ∧ (∀ p ∈ ps2, p < c2) ∧
      q2.size - (ins2 - rem2) = q.size - (ins - rem) ∧
      ((∀ op ∈ ops, op.allocOk) → ins2 = ins + numIns ops) := by
  intro ops
  induction ops with
  | nil =>
    intro q c ins rem ps hrepr hbound
    exact ⟨q, c, ins, rem, ps, rfl, hrepr, hbound, by ring_nf, fun h => by
      rw [show numIns [] = 0 from rfl]; ring⟩
  | cons op ops ih =>
    intro q c ins rem ps hrepr hbound
    have hfreshc : c ∉ ps := fun hm => lt_irrefl c (hbound c hm)
    cases op with
    | insH s ok1 ok2 =>
      by_cases hok : ok1 = true ∧ ok2 = true
      · obtain ⟨rfl, rfl⟩ := hok
        obtain ⟨q1, heq, hrepr1, hvals1, hframe1, hsize1⟩ :=
          q_insert_head_spec hrepr s hfreshc
        have hbound1 : ∀ p ∈ c :: ps, p < c + 1 := by
          intro p hp
          rcases List.mem_cons.mp hp with rfl | hp
          · exact Nat.lt_succ_self p
          · exact Nat.lt_succ_of_lt (hbound p hp)
        obtain ⟨q2, c2, ins2, rem2, ps2, heq2, h1, h2, h3, h4⟩ :=
          ih q1 (c + 1) (ins + 1) rem (c :: ps) hrepr1 hbound1
        refine ⟨q2, c2, ins2, rem2, ps2, ?_, h1, h2, ?_, ?_⟩
        · rw [runC]
          rw [show (if (true : Bool) = true then some c else none) = some c from rfl, heq]
          exact heq2
        · rw [h3, hsize1]
          ring
        · intro hall
          rw [h4 (fun x hx => hall x (List.mem_cons_of_mem _ hx)),
            show numIns (Op.insH s true true :: ops) = numIns ops + 1 from rfl]
          ring
      · have hfalse : q_insert_head (some q) s (if ok1 then some c else none) ok2 =
            (false, some q) := by
          cases hok1 : ok1 with
          | false => rfl
          | true =>
            have hok2 : ok2 = false := by
              cases hok2 : ok2 with
              | true => exact absurd ⟨hok1, hok2⟩ hok
              | false => rfl
            subst hok2
            rfl
        have hbound1 : ∀ p ∈ ps, p < c + 1 := fun p hp =>
          Nat.lt_succ_of_lt (hbound p hp)
        obtain ⟨q2, c2, ins2, rem2, ps2, heq2, h1, h2, h3, h4⟩ :=
          ih q (c + 1) ins rem ps hrepr hbound1
        refine ⟨q2, c2, ins2, rem2, ps2, ?_, h1, h2, h3, ?_⟩
        · rw [runC]
          simp only [hfalse]
          exact heq2
        · intro hall
          exact absurd (hall _ (List.mem_cons_self _ _)) hok
    | insT s ok1 ok2 =>
      by_cases hok : ok1 = true ∧ ok2 = true
      · obtain ⟨rfl, rfl⟩ := hok
        obtain ⟨q1, heq, hrepr1, hvals1, hframe1, hsize1⟩ :=
          q_insert_tail_spec hrepr s hfreshc
        have hbound1 : ∀ p ∈ ps ++ [c], p < c + 1 := by
          intro p hp
          rcases List.mem_append.mp hp with hp | hp
          · exact Nat.lt_succ_of_lt (hbound p hp)
          · rcases List.mem_singleton.mp hp with rfl
            exact Nat.lt_succ_self p
        obtain ⟨q2, c2, ins2, rem2, ps2, heq2, h1, h2, h3, h4⟩ :=
          ih q1 (c + 1) (ins + 1) rem (ps ++ [c]) hrepr1 hbound1
        refine ⟨q2, c2, ins2, rem2, ps2, ?_, h1, h2, ?_, ?_⟩
        · rw [runC]
          rw [show (if (true : Bool) = true then some c else none) = some c from rfl, heq]
          exact heq2
        · rw [h3, hsize1]
          ring
        · intro hall
          rw [h4 (fun x hx => hall x (List.mem_cons_of_mem _ hx)),
            show numIns (Op.insT s true true :: ops) = numIns ops + 1 from rfl]
          ring
      · have hfalse : q_insert_tail (some q) s (if ok1 then some c else none) ok2 =
            (false, some q) := by
          cases hok1 : ok1 with
          | false => rfl
          | true =>
            have hok2 : ok2 = false := by
              cases hok2 : ok2 with
              | true => exact absurd ⟨hok1, hok2⟩ hok
              | false => rfl
            subst hok2
            rfl
        have hbound1 : ∀ p ∈ ps, p < c + 1 := fun p hp =>
          Nat.lt_succ_of_lt (hbound p hp)
        obtain ⟨q2, c2, ins2, rem2, ps2, heq2, h1, h2, h3, h4⟩ :=
          ih q (c + 1) ins rem ps hrepr hbound1
        refine ⟨q2, c2, ins2, rem2, ps2, ?_, h1, h2, h3, ?_⟩
        · rw [runC]
          simp only [hfalse]
          exact heq2
        · intro hall
          exact absurd (hall _ (List.mem_cons_self _ _)) hok
    | remH spOk bufsize =>
      cases hhd : q.head with
      | none =>
        have hfalse : q_remove_head (some q) spOk bufsize = (false, some q, none) := by
          rw [q_remove_head, hhd]
        obtain ⟨q2, c2, ins2, rem2, ps2, heq2, h1, h2, h3, h4⟩ :=
          ih q c ins rem ps hrepr hbound
        refine ⟨q2, c2, ins2, rem2, ps2, ?_, h1, h2, h3, fun hall =>
          by rw [h4 (fun x hx => hall x (List.mem_cons_of_mem _ hx))]; rfl⟩
        rw [runC]
        simp only [hfalse]
        exact heq2
      | some hp =>
        cases hsp : spOk with
        | false =>
          have hfalse : q_remove_head (some q) false bufsize = (false, some q, none) := by
            rw [q_remove_head, hhd]
            rfl
          obtain ⟨q2, c2, ins2, rem2, ps2, heq2, h1, h2, h3, h4⟩ :=
            ih q c ins rem ps hrepr hbound
          refine ⟨q2, c2, ins2, rem2, ps2, ?_, h1, h2, h3, fun hall =>
            by rw [h4 (fun x hx => hall x (List.mem_cons_of_mem _ hx))]; rfl⟩
          rw [runC]
          simp only [hfalse]
          exact heq2
        | true =>
          obtain ⟨p0, ps', rfl⟩ : ∃ p0 ps', ps = p0 :: ps' := by
            cases hps : ps with
            | nil =>
              rw [hps] at hrepr
              have := chain_head_eq hrepr.1
              rw [hhd] at this
              cases this
            | cons p0 ps' => exact ⟨p0, ps', rfl⟩
          obtain ⟨q1, nd, hnd, heq, hrepr1, hfreed, hframe1, hsize1⟩ :=
            q_remove_head_spec hrepr bufsize
          have hbound1 : ∀ p ∈ ps', p < c :=
            fun p hp => hbound p (List.mem_cons_of_mem _ hp)
          obtain ⟨q2, c2, ins2, rem2, ps2, heq2, h1, h2, h3, h4⟩ :=
            ih q1 c ins (rem + 1) ps' hrepr1 hbound1
          refine ⟨q2, c2, ins2, rem2, ps2, ?_, h1, h2, ?_, fun hall =>
            by rw [h4 (fun x hx => hall x (List.mem_cons_of_mem _ hx))]; rfl⟩
          · rw [runC]
            simp only [heq]
            exact heq2
          · rw [h3, hsize1]
            ring
    | rev =>
      have hfuel : ps.length ≤ q.size.toNat + 1 := by
        rw [hrepr.2.2]
        simp
      obtain ⟨q1, heq, hrepr1, -, -, hsize1, -, -, -, -⟩ := q_reverse_spec hrepr hfuel
      have hbound1 : ∀ p ∈ ps.reverse, p < c := fun p hp =>
        hbound p (List.mem_reverse.mp hp)
      obtain ⟨q2, c2, ins2, rem2, ps2, heq2, h1, h2, h3, h4⟩ :=
        ih q1 c ins rem ps.reverse hrepr1 hbound1
      refine ⟨q2, c2, ins2, rem2, ps2, ?_, h1, h2, ?_, fun hall =>
        by rw [h4 (fun x hx => hall x (List.mem_cons_of_mem _ hx))]; rfl⟩
      · rw [runC]
        simp only [heq]
        exact heq2
      · rw [h3, hsize1]
    | srt =>
      have hfuel : ps.length ≤ q.size.toNat + 1 := by
        rw [hrepr.2.2]
        simp
      obtain ⟨q1, ps1, heq, hrepr1, hperm1, -, hsize1, -, -, -, -⟩ := q_sort_spec hrepr hfuel
      have hbound1 : ∀ p ∈ ps1, p < c := fun p hp =>
        hbound p (hperm1.mem_iff.mp hp)
      obtain ⟨q2, c2, ins2, rem2, ps2, heq2, h1, h2, h3, h4⟩ :=
        ih q1 c ins rem ps1 hrepr1 hbound1
      refine ⟨q2, c2, ins2, rem2, ps2, ?_, h1, h2, ?_, fun hall =>
        by rw [h4 (fun x hx => hall x (List.mem_cons_of_mem _ hx))]; rfl⟩
      · rw [runC]
        simp only [heq]
        exact heq2
      · rw [h3, hsize1]

/-- The structural invariants I1 and I2 in explicit form, derived from the
representation invariant: `size == 0` iff `head` is none iff `tail` is none;
following `next` from `head` exactly `size` nodes reaches `tail` (the walk
sits on `tail` after `size - 1` links and finds NULL after `size` links),
the node at `tail` has `next == none`, and the chain has no duplicate
addresses (no cycles). -/
theorem reprQ_invariants {q : QState} {ps : List Ptr} (h : reprQ q ps) :
    (q.size = 0 ↔ q.head = none) ∧ (q.head = none ↔ q.tail = none) ∧
    iterNext q.heap q.head q.size.toNat = none ∧
    (q.head ≠ none →
      iterNext q.heap q.head (q.size.toNat - 1) = q.tail ∧
      ∃ t nd, q.tail = some t ∧ q.heap t = some nd ∧ nd.next = none) ∧
    ps.Nodup := by
  obtain ⟨hchain, htail, hsize⟩ := h
  have hh : q.head = ps.head? := chain_head_eq hchain
  have htn : q.size.toNat = ps.length := by
    rw [hsize]
    simp
  refine ⟨?_, ?_, ?_, ?_, chain_nodup hchain⟩
  · rw [hsize, hh]
    cases ps with
    | nil => simp
    | cons a l =>
      simp only [List.head?_cons, List.length_cons]
      constructor
      · intro h2
        exfalso
        rw [show ((l.length + 1 : Nat) : Int) = (l.length : Int) + 1 by push_cast; ring] at h2
        omega
      · intro h2
        cases h2
  · rw [hh, htail]
    cases ps <;> simp
  · rw [htn]
    exact chain_iterNext_none hchain
  · intro hne
    have hpsne : ps ≠ [] := by
      intro hps
      rw [hps] at hh
      exact hne hh
    constructor
    · rw [htn, chain_iterNext_last hchain hpsne, htail]
    · cases hps : ps with
      | nil => exact absurd hps hpsne
      | cons p ps' =>
        rw [hps] at hchain
        have hstart : q.head = some p := (chainSeg_cons_inv hchain).1
        rw [hstart] at hchain
        obtain ⟨t, nd, hlast, hnd, hnext⟩ := chain_last hchain
        refine ⟨t, nd, ?_, hnd, hnext⟩
        rw [htail, hps, hlast]

theorem reprQ_q_new : reprQ q_new [] := ⟨chainSeg.nil none, rfl, rfl⟩

/-- C1: for every sequence of insert_head, insert_tail and remove_head
calls starting from a freshly constructed queue, interleaved with reverse
and sort, the run succeeds and afterwards the structural invariants hold:
`size == 0` iff `head == none` iff `tail == none`; following `next` links
from `head` visits exactly `size` nodes, the last being `tail`, whose
`next` is `none`, with no cycles (distinct addresses); and the final size
equals the number of successful inserts minus the number of successful
removes — which, whenever every insert's allocations succeed, is the number
of insert calls minus the successful removes.  Every prefix of a sequence
is itself a sequence, so this gives the invariants after every call. -/
theorem spec_C1 (ops : List Op) :
    ∃ q2 c2 ins2 rem2 ps2,
      runC q_new 0 0 0 ops = some (q2, c2, ins2, rem2) ∧
      reprQ q2 ps2 ∧ ps2.Nodup ∧
      (q2.size = 0 ↔ q2.head = none) ∧ (q2.head = none ↔ q2.tail = none) ∧
      iterNext q2.heap q2.head q2.size.toNat = none ∧
      (q2.head ≠ none →
        iterNext q2.heap q2.head (q2.size.toNat - 1) = q2.tail ∧
        ∃ t nd, q2.tail = some t ∧ q2.heap t = some nd ∧ nd.next = none) ∧
      q2.size = ins2 - rem2 ∧
      ((∀ op ∈ ops, op.allocOk) → ins2 = numIns ops) := by
  obtain ⟨q2, c2, ins2, rem2, ps2, heq, hrepr, hbound, hsize, hins⟩ :=
    runC_spec ops q_new 0 0 0 [] reprQ_q_new (by simp)
  obtain ⟨hi1, hi2, hi3, hi4, hnd⟩ := reprQ_invariants hrepr
  refine ⟨q2, c2, ins2, rem2, ps2, heq, hrepr, hnd, hi1, hi2, hi3, hi4, ?_, ?_⟩
  · have : q_new.size - (0 - 0 : Int) = 0 := rfl
    rw [this] at hsize
    omega
  · intro hall
    have := hins hall
    omega

theorem spec_C1_witness :
    ∃ q2 c2 ins2 rem2 ps2,
      runC q_new 0 0 0
        [Op.insT [98] true true, Op.insH [97] true true, Op.insT [99] true false,
          Op.srt, Op.rev, Op.remH true 8, Op.remH false 8] = some (q2, c2, ins2, rem2) ∧
      reprQ q2 ps2 ∧ ps2.Nodup ∧
      (q2.size = 0 ↔ q2.head = none) ∧ (q2.head = none ↔ q2.tail = none) ∧
      iterNext q2.heap q2.head q2.size.toNat = none ∧
      (q2.head ≠ none →
        iterNext q2.heap q2.head (q2.size.toNat - 1) = q2.tail ∧
        ∃ t nd, q2.tail = some t ∧ q2.heap t = some nd ∧ nd.next = none) ∧
      q2.size = ins2 - rem2 ∧
      ((∀ op ∈ [Op.insT [98] true true, Op.insH [97] true true, Op.insT [99] true false,
          Op.srt, Op.rev, Op.remH true 8, Op.remH false 8], op.allocOk) →
        ins2 = numIns [Op.insT [98] true true, Op.insH [97] true true,
          Op.insT [99] true false, Op.srt, Op.rev, Op.remH true 8, Op.remH false 8]) :=
  spec_C1 [Op.insT [98] true true, Op.insH [97] true true, Op.insT [99] true false,
    Op.srt, Op.rev, Op.remH true 8, Op.remH false 8]

/-- A concrete two-node queue ("b", "a") used to exercise the theorems. -/
def twoQ : QState :=
  ⟨some 0, some 1, 2,
    fun p => if p = 0 then some ⟨[98], some 1⟩ else if p = 1 then some ⟨[97], none⟩ else none⟩

theorem twoQ_repr : reprQ twoQ [0, 1] :=
  ⟨chainSeg.cons rfl (chainSeg.cons rfl (chainSeg.nil none)), rfl, rfl⟩

/-- A concrete one-node queue ("h"). -/
def oneQ : QState :=
  ⟨some 0, some 0, 1, fun p => if p = 0 then some ⟨[104], none⟩ else none⟩

theorem oneQ_repr : reprQ oneQ [0] :=
  ⟨chainSeg.cons rfl (chainSeg.nil none), rfl, rfl⟩

/-- C2: after `q_sort` the payloads read head-to-tail are in ascending
byte-wise order (`strcmp` of every adjacent pair is not positive), the
multiset of payload values (a permutation) and the node count are
unchanged, and sort is a no-op on a NULL queue reference, an empty queue,
and a one-node queue. -/
theorem spec_C2 {q : QState} {ps : List Ptr} (hrepr : reprQ q ps) {fuel : Nat}
    (hfuel : ps.length ≤ fuel) :
    ∃ q2 ps2, q_sort fuel (some q) = some (some q2) ∧ reprQ q2 ps2 ∧
      List.Chain' sle (valsIn q2.heap ps2) ∧
      (valsIn q2.heap ps2).Perm (valsIn q.heap ps) ∧
      ps2.length = ps.length ∧
      q_sort fuel none = some none ∧
      (ps = [] → q2 = q) ∧ (ps.length = 1 → q2 = q) := by
  obtain ⟨q2, ps2, heq, hrepr2, hperm, hvals, hsz, hvpt, hframe, hnil, hone⟩ :=
    q_sort_spec hrepr hfuel
  refine ⟨q2, ps2, heq, hrepr2, ?_, ?_, hperm.length_eq, by rw [q_sort], hnil, hone⟩
  · rw [hvals]
    exact (merge_sortVals_sorted _).chain'
  · rw [hvals]
    exact merge_sortVals_perm _

theorem spec_C2_witness :
    ∃ q2 ps2, q_sort 2 (some twoQ) = some (some q2) ∧ reprQ q2 ps2 ∧
      List.Chain' sle (valsIn q2.heap ps2) ∧
      (valsIn q2.heap ps2).Perm (valsIn twoQ.heap [0, 1]) ∧
      ps2.length = ([0, 1] : List Ptr).length ∧
      q_sort 2 none = some none ∧
      (([0, 1] : List Ptr) = [] → q2 = twoQ) ∧
      (([0, 1] : List Ptr).length = 1 → q2 = twoQ) :=
  @spec_C2 twoQ [0, 1] twoQ_repr 2 (by decide)

/-- C3: running `q_reverse` on a valid queue reverses exactly the value sequence by
rewriting only next links: the new head is the former tail and the new tail
the former head, every payload of every allocated node is untouched (so no
node is allocated or freed: the heap domain and all values are pointwise
preserved), nodes outside the chain are byte-for-byte unchanged, an empty
queue is returned exactly as it was, and a NULL queue reference is a
no-op. -/
theorem spec_C3 {q : QState} {ps : List Ptr} (hrepr : reprQ q ps) {fuel : Nat}
    (hfuel : ps.length ≤ fuel) :
    ∃ q2, q_reverse fuel (some q) = some (some q2) ∧
      valsIn q2.heap ps.reverse = (valsIn q.heap ps).reverse ∧
      reprQ q2 ps.reverse ∧
      q2.head = q.tail ∧ q2.tail = q.head ∧ q2.size = q.size ∧
      (∀ p, valueAt q2.heap p = valueAt q.heap p) ∧
      (∀ p, p ∉ ps → q2.heap p = q.heap p) ∧
      (ps = [] → q2 = q) ∧
      q_reverse fuel none = some none := by
  obtain ⟨q2, heq, hrepr2, hh, ht, hs, hvals, hvpt, hframe, hnil⟩ := q_reverse_spec hrepr hfuel
  exact ⟨q2, heq, hvals, hrepr2, hh, ht, hs, hvpt, hframe, hnil, by rw [q_reverse]⟩

theorem spec_C3_witness :
    ∃ q2, q_reverse 2 (some twoQ) = some (some q2) ∧
      valsIn q2.heap ([0, 1] : List Ptr).reverse = (valsIn twoQ.heap [0, 1]).reverse ∧
      reprQ q2 ([0, 1] : List Ptr).reverse ∧
      q2.head = twoQ.tail ∧ q2.tail = twoQ.head ∧ q2.size = twoQ.size ∧
      (∀ p, valueAt q2.heap p = valueAt twoQ.heap p) ∧
      (∀ p, p ∉ ([0, 1] : List Ptr) → q2.heap p = twoQ.heap p) ∧
      (([0, 1] : List Ptr) = [] → q2 = twoQ) ∧
      q_reverse 2 none = some none :=
  @spec_C3 twoQ [0, 1] twoQ_repr 2 (by decide)

/-- C4: the two sort strategies are interchangeable: the partition-based
`quick_sort` (which swaps payload buffers along the `first..last` range and
leaves the link structure alone, so it is exactly a transformation of the
value sequence) and `merge_sort` (whose relinking realises `merge_sortVals`
on the value sequence, theorem `merge_sort_spec`) produce the same
resulting sequence of payload values read head-to-tail. -/
theorem spec_C4 (l : List Str) : quick_sort l = merge_sortVals l :=
  quick_sort_eq_merge_sortVals l

/-- C8: reverse is an involution: on a NULL reference it is a no-op twice
over, and on every valid queue (empty and singleton included) reversing
twice returns the queue to exactly its original state — same head, same
tail, same size, every node and link restored. -/
theorem spec_C8 {q : QState} {ps : List Ptr} (hrepr : reprQ q ps) {fuel : Nat}
    (hfuel : ps.length ≤ fuel) :
    q_reverse fuel none = some none ∧
    ∃ q1, q_reverse fuel (some q) = some (some q1) ∧
      q_reverse fuel (some q1) = some (some q) :=
  ⟨by rw [q_reverse], q_reverse_involutive hrepr hfuel⟩

theorem spec_C8_witness :
    q_reverse 1 none = some none ∧
    ∃ q1, q_reverse 1 (some oneQ) = some (some q1) ∧
      q_reverse 1 (some q1) = some (some oneQ) :=
  @spec_C8 oneQ [0] oneQ_repr 1 (by decide)

/-- C9: sort is idempotent: sorting a valid queue twice succeeds and the
second sort leaves the same head-to-tail sequence of payload values as the
first. -/
theorem spec_C9 {q : QState} {ps : List Ptr} (hrepr : reprQ q ps) {fuel : Nat}
    (hfuel : ps.length ≤ fuel) :
    ∃ q1 ps1 q2 ps2,
      q_sort fuel (some q) = some (some q1) ∧
      q_sort fuel (some q1) = some (some q2) ∧
      reprQ q1 ps1 ∧ reprQ q2 ps2 ∧
      valsIn q2.heap ps2 = valsIn q1.heap ps1 := by
  obtain ⟨q1, ps1, heq1, hrepr1, hperm1, hvals1, -, -, -, -, -⟩ := q_sort_spec hrepr hfuel
  have hfuel1 : ps1.length ≤ fuel := by
    rw [hperm1.length_eq]
    exact hfuel
  obtain ⟨q2, ps2, heq2, hrepr2, hperm2, hvals2, -, -, -, -, -⟩ := q_sort_spec hrepr1 hfuel1
  refine ⟨q1, ps1, q2, ps2, heq1, heq2, hrepr1, hrepr2, ?_⟩
  rw [hvals2, hvals1, merge_sortVals_idem]

theorem spec_C9_witness :
    ∃ q1 ps1 q2 ps2,
      q_sort 2 (some twoQ) = some (some q1) ∧
      q_sort 2 (some q1) = some (some q2) ∧
      reprQ q1 ps1 ∧ reprQ q2 ps2 ∧
      valsIn q2.heap ps2 = valsIn q1.heap ps1 :=
  @spec_C9 twoQ [0, 1] twoQ_repr 2 (by decide)

/-- A concrete one-node queue holding "hello". -/
def helloQ : QState :=
  ⟨some 0, some 0, 1,
    fun p => if p = 0 then some ⟨[104, 101, 108, 108, 111], none⟩ else none⟩

/-- C5: the operation `q_remove_head` fails (returns false with the queue unchanged and
nothing written) exactly when the queue reference is NULL, the queue is
empty, or the output buffer pointer is NULL; on success it unlinks and
frees the head node, advances `head`, and the buffer receives at most
`bufsize - 1` payload bytes followed by a NUL terminator (modelled as the
`take` of the payload), silently truncating: with capacity 3 and stored
value "hello" the output is "he" and the call still returns true. -/
theorem spec_C5 (q : QState) (spOk : Bool) (bufsize : Nat) :
    q_remove_head none spOk bufsize = (false, none, none) ∧
    ((q_remove_head (some q) spOk bufsize).1 = false ↔ (q.head = none ∨ spOk = false)) ∧
    ((q.head = none ∨ spOk = false) →
      q_remove_head (some q) spOk bufsize = (false, some q, none)) ∧
    (∀ hp nd, q.head = some hp → q.heap hp = some nd →
      q_remove_head (some q) true bufsize =
        (true, some ⟨nd.next, if q.size - 1 = 0 then none else q.tail, q.size - 1,
          hupdate q.heap hp none⟩, some (nd.value.take (sizeSub1 bufsize)))) ∧
    ((q_remove_head (some helloQ) true 3).1 = true ∧
      (q_remove_head (some helloQ) true 3).2.2 = some [104, 101]) := by
  refine ⟨rfl, ?_, ?_, ?_, ?_, ?_⟩
  · cases hhd : q.head with
    | none => simp [q_remove_head, hhd]
    | some hp =>
      cases spOk with
      | false => simp [q_remove_head, hhd]
      | true => simp [q_remove_head, hhd]
  · rintro (hhd | hsp)
    · rw [q_remove_head, hhd]
    · subst hsp
      cases hhd : q.head with
      | none => rw [q_remove_head, hhd]
      | some hp =>
        rw [q_remove_head, hhd]
        rfl
  · intro hp nd hhd hnd
    rw [q_remove_head, hhd]
    simp [hnd]
  · rfl
  · show some (([104, 101, 108, 108, 111] : Str).take (sizeSub1 3)) = some [104, 101]
    rw [show sizeSub1 3 = 2 by unfold sizeSub1 wordSize; norm_num]
    rfl

theorem spec_C5_witness :
    q_remove_head (some helloQ) true 3 =
      (true, some ⟨none, if helloQ.size - 1 = 0 then none else helloQ.tail,
        helloQ.size - 1, hupdate helloQ.heap 0 none⟩,
        some (([104, 101, 108, 108, 111] : Str).take (sizeSub1 3))) :=
  (spec_C5 helloQ true 3).2.2.2.1 0 ⟨[104, 101, 108, 108, 111], none⟩ rfl rfl

/-- C6: the insert operations are atomic on failure: `q_insert_head` and
`q_insert_tail` return false exactly when the queue reference is NULL, the
node allocation fails, or the payload allocation fails, and in every
failure case on a live queue the returned state is exactly the original
queue — head, tail, size and the whole node heap unchanged.  The heap
equality also expresses that the node allocated before a failed payload
allocation was released within the call: no address holds a leaked node. -/
theorem spec_C6 (q : QState) (s : Str) (a1 : Option Ptr) (a2 : Bool) :
    q_insert_head none s a1 a2 = (false, none) ∧
    q_insert_tail none s a1 a2 = (false, none) ∧
    ((q_insert_head (some q) s a1 a2).1 = false ↔ (a1 = none ∨ a2 = false)) ∧
    ((q_insert_tail (some q) s a1 a2).1 = false ↔ (a1 = none ∨ a2 = false)) ∧
    ((a1 = none ∨ a2 = false) → q_insert_head (some q) s a1 a2 = (false, some q)) ∧
    ((a1 = none ∨ a2 = false) → q_insert_tail (some q) s a1 a2 = (false, some q)) := by
  refine ⟨rfl, rfl, ?_, ?_, ?_, ?_⟩
  · cases a1 with
    | none => simp [q_insert_head]
    | some p =>
      cases a2 with
      | false => simp [q_insert_head]
      | true => simp [q_insert_head]
  · cases a1 with
    | none => simp [q_insert_tail]
    | some p =>
      cases a2 with
      | false => simp [q_insert_tail]
      | true =>
        cases htl : q.tail with
        | none => simp [q_insert_tail, htl]
        | some t => simp [q_insert_tail, htl]
  · rintro (rfl | rfl)
    · rfl
    · cases a1 with
      | none => rfl
      | some p => rfl
  · rintro (rfl | rfl)
    · rfl
    · cases a1 with
      | none => rfl
      | some p => rfl

theorem spec_C6_witness :
    q_insert_head (some q_new) [120] none true = (false, some q_new) ∧
    q_insert_tail (some q_new) [120] (some 0) false = (false, some q_new) :=
  ⟨(spec_C6 q_new [120] none true).2.2.2.2.1 (Or.inl rfl),
    (spec_C6 q_new [120] (some 0) false).2.2.2.2.2 (Or.inr rfl)⟩

/-- C7: round trip: inserting any value at the tail of a previously empty
queue with successful allocations and then immediately removing the head
succeeds and fills the output buffer with exactly the inserted value,
byte for byte (the buffer being large enough to hold it). -/
theorem spec_C7 (q : QState) (s : Str) (p : Ptr) (bufsize : Nat)
    (hh : q.head = none) (ht : q.tail = none)
    (hb1 : 1 ≤ bufsize) (hb2 : bufsize ≤ wordSize) (hlen : s.length ≤ bufsize - 1) :
    ∃ q1, q_insert_tail (some q) s (some p) true = (true, some q1) ∧
      (q_remove_head (some q1) true bufsize).1 = true ∧
      (q_remove_head (some q1) true bufsize).2.2 = some s := by
  refine ⟨⟨some p, some p, q.size + 1, hupdate q.heap p (some ⟨s, none⟩)⟩, ?_, ?_, ?_⟩
  · rw [q_insert_tail, ht]
    rfl
  · rfl
  · show some ((((hupdate q.heap p (some ⟨s, none⟩)) p).getD ⟨[], none⟩).value.take
      (sizeSub1 bufsize)) = some s
    rw [hupdate_same]
    show some (s.take (sizeSub1 bufsize)) = some s
    rw [show sizeSub1 bufsize = bufsize - 1 by unfold sizeSub1 wordSize at *; omega]
    rw [List.take_of_length_le hlen]

theorem spec_C7_witness :
    ∃ q1, q_insert_tail (some q_new) [104, 105] (some 0) true = (true, some q1) ∧
      (q_remove_head (some q1) true 3).1 = true ∧
      (q_remove_head (some q1) true 3).2.2 = some [104, 105] :=
  spec_C7 q_new [104, 105] 0 3 rfl rfl (by norm_num) (by norm_num [wordSize]) (by norm_num)

/-- A concrete one-node queue holding "hi", for the capacity-zero case. -/
def hiQ : QState :=
  ⟨some 0, some 0, 1, fun p => if p = 0 then some ⟨[104, 105], none⟩ else none⟩

/-- C10: the operation `q_remove_head` never checks that the buffer capacity is at least
one: on a non-empty queue with a non-null buffer and capacity 0 it still
returns true, and the C expression `bufsize - 1` — used both as the
`strncpy` copy bound and as the index of the stored NUL terminator — is
computed in `size_t` arithmetic and wraps to `2^64 - 1`, so the
copy/terminate contract is only meaningful for capacity at least 1. -/
theorem spec_C10 (q : QState) (hp : Ptr) (hhd : q.head = some hp) :
    (q_remove_head (some q) true 0).1 = true ∧
    sizeSub1 0 = wordSize - 1 ∧
    wordSize - 1 = 2 ^ 64 - 1 ∧
    (q_remove_head (some q) true 0).2.2 =
      some (((q.heap hp).getD ⟨[], none⟩).value.take (sizeSub1 0)) := by
  refine ⟨?_, ?_, rfl, ?_⟩
  · rw [q_remove_head, hhd]
    rfl
  · unfold sizeSub1 wordSize
    norm_num
  · rw [q_remove_head, hhd]
    rfl

theorem spec_C10_witness :
    (q_remove_head (some hiQ) true 0).1 = true ∧
    sizeSub1 0 = wordSize - 1 ∧
    wordSize - 1 = 2 ^ 64 - 1 ∧
    (q_remove_head (some hiQ) true 0).2.2 =
      some (((hiQ.heap 0).getD ⟨[], none⟩).value.take (sizeSub1 0)) :=
  spec_C10 hiQ 0 rfl
